import Mathlib

/-!
Verification of the y-query core: a schema-typed, queryable, reactive table
layer over a replicated document (src/core/update.ts, src/core/view.ts,
src/core/yjs-types.ts).  The replicated-document runtime itself (Yjs) is an
external collaborator; its containers, transactions and observer events are
modelled from the contract stated in the specification (section 6): an
ordered-key map container per named path, auto-allocated on access, shallow
observers firing on direct mutations of a container and deep observers firing
on any mutation at or beneath the container's path.
-/

set_option autoImplicit false

namespace YQ

/-- Container paths. The source builds container names by joining the table
name, row key and field names with dots; we keep the segments as a list. -/
abbrev Path := List String

/-- Kinds of raw shared containers that can back a field via the
`syncAs` schema option (Y.Map used as raw container, Y.XmlFragment, Y.Array). -/
inductive RKind where
  | ymap
  | yxml
  | yarray
  deriving DecidableEq, Repr

mutual
/-- JavaScript values as y-query manipulates them: primitives, plain objects,
attached shared-container handles obtained from the document (`yref`, carrying
the container path, as returned by doc.get) and freshly constructed detached
shared-container instances (`ydet`, such as `new Y.Map()`). -/
inductive JVal where
  | str (s : String)
  | bool (b : Bool)
  | int (n : Int)
  | jobj (fs : JFields)
  | yref (k : RKind) (p : Path)
  | ydet (k : RKind)

/-- Fields of a JavaScript object, in property insertion order. -/
inductive JFields where
  | nil
  | cons (name : String) (v : JVal) (rest : JFields)
end

mutual
def JVal.beq : JVal → JVal → Bool
  | .str a, .str b => a == b
  | .bool a, .bool b => a == b
  | .int a, .int b => a == b
  | .jobj a, .jobj b => JFields.beq a b
  | .yref k p, .yref k' p' => k == k' && p == p'
  | .ydet k, .ydet k' => k == k'
  | _, _ => false

def JFields.beq : JFields → JFields → Bool
  | .nil, .nil => true
  | .cons n v r, .cons n' v' r' => n == n' && JVal.beq v v' && JFields.beq r r'
  | _, _ => false
end

mutual
theorem JVal.beq_iff_val : ∀ a b : JVal, JVal.beq a b = true ↔ a = b
  | .str a, b => by cases b <;> simp [JVal.beq]
  | .bool a, b => by cases b <;> simp [JVal.beq]
  | .int a, b => by cases b <;> simp [JVal.beq]
  | .jobj a, b => by
      cases b <;> simp [JVal.beq]
      exact JFields.beq_iff_fields a _
  | .yref k p, b => by cases b <;> simp [JVal.beq]
  | .ydet k, b => by cases b <;> simp [JVal.beq]

theorem JFields.beq_iff_fields : ∀ a b : JFields, JFields.beq a b = true ↔ a = b
  | .nil, b => by cases b <;> simp [JFields.beq]
  | .cons n v r, b => by
      cases b with
      | nil => simp [JFields.beq]
      | cons n' v' r' =>
          simp [JFields.beq, JVal.beq_iff_val v v', JFields.beq_iff_fields r r', and_assoc]
end

instance : DecidableEq JVal := fun a b =>
  decidable_of_iff (JVal.beq a b = true) (JVal.beq_iff_val a b)

instance : DecidableEq JFields := fun a b =>
  decidable_of_iff (JFields.beq a b = true) (JFields.beq_iff_fields a b)

/-- Looks a property up in a JavaScript object (first matching name). -/
def JFields.get : JFields → String → Option JVal
  | .nil, _ => none
  | .cons n v r, m => if n = m then some v else r.get m

/-- Property assignment: replaces the value in place if the name is present,
appends the property otherwise. -/
def JFields.set : JFields → String → JVal → JFields
  | .nil, m, w => .cons m w .nil
  | .cons n v r, m, w => if n = m then .cons n w r else .cons n v (r.set m w)

/-- Property deletion (the JavaScript `delete` operator). -/
def JFields.del : JFields → String → JFields
  | .nil, _ => .nil
  | .cons n v r, m => if n = m then r.del m else .cons n v (r.del m)

/-- Property presence test (the JavaScript `in` operator). -/
def JFields.has (fs : JFields) (n : String) : Bool := (fs.get n).isSome

/-- Property names in order. -/
def JFields.names : JFields → List String
  | .nil => []
  | .cons n _ r => n :: r.names

theorem JFields.get_set_self : ∀ (fs : JFields) (n : String) (w : JVal),
    (fs.set n w).get n = some w
  | .nil, n, w => by simp [JFields.set, JFields.get]
  | .cons m v r, n, w => by
      by_cases h : m = n <;>
        simp [JFields.set, JFields.get, h, JFields.get_set_self r n w]

theorem JFields.get_set_ne : ∀ (fs : JFields) (n m : String) (w : JVal),
    n ≠ m → (fs.set n w).get m = fs.get m
  | .nil, n, m, w, h => by simp [JFields.set, JFields.get, h]
  | .cons n' v r, n, m, w, h => by
      by_cases h' : n' = n
      · subst h'; simp [JFields.set, JFields.get, h]
      · simp [JFields.set, JFields.get, h', JFields.get_set_ne r n m w h]

theorem JFields.get_del_self : ∀ (fs : JFields) (n : String),
    (fs.del n).get n = none
  | .nil, n => by simp [JFields.del, JFields.get]
  | .cons m v r, n => by
      by_cases h : m = n <;>
        simp [JFields.del, JFields.get, h, JFields.get_del_self r n]

theorem JFields.get_del_ne : ∀ (fs : JFields) (n m : String),
    n ≠ m → (fs.del n).get m = fs.get m
  | .nil, n, m, h => by simp [JFields.del]
  | .cons n' v r, n, m, h => by
      by_cases h' : n' = n
      · simp [JFields.del, JFields.get, h', h, JFields.get_del_ne r n m h]
      · simp [JFields.del, JFields.get, h', JFields.get_del_ne r n m h]

theorem JFields.del_of_get_none : ∀ (fs : JFields) (n : String),
    fs.get n = none → fs.del n = fs
  | .nil, n, _ => by simp [JFields.del]
  | .cons m v r, n, h => by
      by_cases h' : m = n
      · simp [JFields.get, h'] at h
      · simp [JFields.get, h'] at h
        simp [JFields.del, h', JFields.del_of_get_none r n h]

theorem JFields.get_isSome_of_mem_names : ∀ (fs : JFields) (n : String),
    n ∈ fs.names → (fs.get n).isSome
  | .nil, n, h => by simp [JFields.names] at h
  | .cons m v r, n, h => by
      simp [JFields.names] at h
      by_cases h' : m = n
      · simp [JFields.get, h']
      · simp [JFields.get, h']
        exact JFields.get_isSome_of_mem_names r n
          (h.resolve_left (fun hh => h' hh.symm))

theorem JFields.mem_names_of_get_isSome : ∀ (fs : JFields) (n : String),
    (fs.get n).isSome → n ∈ fs.names
  | .nil, n, h => by simp [JFields.get] at h
  | .cons m v r, n, h => by
      simp [JFields.get] at h
      by_cases h' : m = n
      · simp [JFields.names, h']
      · simp [h'] at h
        simp [JFields.names]
        exact Or.inr (JFields.mem_names_of_get_isSome r n h)

/-- Association-list lookup keyed by container path. -/
def lookupP {α : Type} : List (Path × α) → Path → Option α
  | [], _ => none
  | (q, a) :: r, p => if q = p then some a else lookupP r p

/-- Association-list update keyed by container path: replace or append. -/
def setP {α : Type} : List (Path × α) → Path → α → List (Path × α)
  | [], p, a => [(p, a)]
  | (q, b) :: r, p, a => if q = p then (q, a) :: r else (q, b) :: setP r p a

theorem lookupP_setP_self {α : Type} : ∀ (l : List (Path × α)) (p : Path) (a : α),
    lookupP (setP l p a) p = some a
  | [], p, a => by simp [setP, lookupP]
  | (q, b) :: r, p, a => by
      by_cases h : q = p <;> simp [setP, lookupP, h, lookupP_setP_self r p a]

theorem lookupP_setP_ne {α : Type} : ∀ (l : List (Path × α)) (p q : Path) (a : α),
    p ≠ q → lookupP (setP l p a) q = lookupP l q
  | [], p, q, a, h => by simp [setP, lookupP, h]
  | (q', b) :: r, p, q, a, h => by
      by_cases h' : q' = p
      · simp [setP, lookupP, h', h, lookupP_setP_ne r p q a h]
      · simp [setP, lookupP, h', lookupP_setP_ne r p q a h]

/-- The replicated document: ordered-key map containers and raw shared
containers, each looked up by path.  Map containers auto-allocate as empty on
access; raw container content is opaque to y-query and modelled as an integer
version mutated only through the container's own API. -/
structure Doc where
  maps : List (Path × JFields)
  raws : List (Path × Int)
  deriving DecidableEq

/-- Gets the ordered-key map container at a path (doc.getMap); a container
never accessed before reads as empty. -/
def Doc.getMap (d : Doc) (p : Path) : JFields := (lookupP d.maps p).getD .nil

def Doc.setMap (d : Doc) (p : Path) (m : JFields) : Doc :=
  { d with maps := setP d.maps p m }

theorem Doc.getMap_setMap_self (d : Doc) (p : Path) (m : JFields) :
    (d.setMap p m).getMap p = m := by
  simp [Doc.getMap, Doc.setMap, lookupP_setP_self]

theorem Doc.getMap_setMap_ne (d : Doc) (p q : Path) (m : JFields) (h : p ≠ q) :
    (d.setMap p m).getMap q = d.getMap q := by
  simp [Doc.getMap, Doc.setMap, lookupP_setP_ne d.maps p q m h]

/-- Kinds of key-level mutation events the runtime reports for an ordered-key
map container (event.changes.keys actions). -/
inductive Act where
  | add
  | upd
  | del
  deriving DecidableEq, Repr

/-- One mutation event record of a transaction: which container changed, how,
and at which key. -/
structure Change where
  path : Path
  act : Act
  key : String
  deriving DecidableEq, Repr

/-- A document under an open transaction: current content plus the log of
changes the runtime will report when the transaction commits. -/
structure TxDoc where
  doc : Doc
  log : List Change
  deriving DecidableEq

/-- Sets a key of a map container inside a transaction (Y.Map.set).  The
runtime reports an add action for a fresh key and an update otherwise. -/
def mapSet (w : TxDoc) (p : Path) (n : String) (v : JVal) : TxDoc :=
  let m := w.doc.getMap p
  let a := if m.has n then Act.upd else Act.add
  ⟨w.doc.setMap p (m.set n v), w.log ++ [⟨p, a, n⟩]⟩

/-- Deletes a key of a map container inside a transaction (Y.Map.delete).
Deleting an absent key mutates nothing and reports nothing. -/
def mapDel (w : TxDoc) (p : Path) (n : String) : TxDoc :=
  let m := w.doc.getMap p
  if m.has n then ⟨w.doc.setMap p (m.del n), w.log ++ [⟨p, .del, n⟩]⟩ else w

/-- Mutates a raw shared container directly through the container's own API
(for example row.rawMap.set(...) in the tests); not part of the y-query
mutation API. -/
def rawSet (w : TxDoc) (p : Path) (z : Int) : TxDoc :=
  ⟨{ w.doc with raws := setP w.doc.raws p z }, w.log ++ [⟨p, .upd, ""⟩]⟩

theorem mapSet_raws (w : TxDoc) (p : Path) (n : String) (v : JVal) :
    (mapSet w p n v).doc.raws = w.doc.raws := rfl

theorem mapDel_raws (w : TxDoc) (p : Path) (n : String) :
    (mapDel w p n).doc.raws = w.doc.raws := by
  by_cases h : (w.doc.getMap p).has n <;> simp [mapDel, h, Doc.setMap]

theorem mapSet_getMap_ne (w : TxDoc) (p q : Path) (n : String) (v : JVal)
    (h : p ≠ q) : (mapSet w p n v).doc.getMap q = w.doc.getMap q := by
  simp [mapSet, Doc.getMap_setMap_ne _ _ _ _ h]

theorem mapSet_getMap_self (w : TxDoc) (p : Path) (n : String) (v : JVal) :
    (mapSet w p n v).doc.getMap p = (w.doc.getMap p).set n v := by
  simp [mapSet, Doc.getMap_setMap_self]

mutual
/-- Schema nodes, as the row codec distinguishes them: primitive leaves
(string, boolean, number, literal), raw shared-container fields (declared by
z.instanceof with a syncAs metadata entry naming the container class), nested
record schemas and discriminated unions.  The syncMap flag records an
explicit syncAs Y.Map metadata entry; the shallow flag records shallow true
metadata. -/
inductive Sch where
  | sstr
  | sbool
  | sint
  | lit (v : JVal)
  | raw (k : RKind)
  | obj (syncMap : Bool) (shallow : Bool) (sh : Shape)
  | union (syncMap : Bool) (shallow : Bool) (disc : String) (vs : Variants)

/-- The shape of a record schema: its fields in declaration order. -/
inductive Shape where
  | nil
  | cons (name : String) (t : Sch) (rest : Shape)

/-- The variant object schemas of a discriminated union. -/
inductive Variants where
  | nil
  | cons (sh : Shape) (rest : Variants)
end

mutual
def Sch.beq : Sch → Sch → Bool
  | .sstr, .sstr => true
  | .sbool, .sbool => true
  | .sint, .sint => true
  | .lit v, .lit v' => v == v'
  | .raw k, .raw k' => k == k'
  | .obj a b sh, .obj a' b' sh' => a == a' && b == b' && Shape.beq sh sh'
  | .union a b d vs, .union a' b' d' vs' =>
      a == a' && b == b' && d == d' && Variants.beq vs vs'
  | _, _ => false

def Shape.beq : Shape → Shape → Bool
  | .nil, .nil => true
  | .cons n t r, .cons n' t' r' => n == n' && Sch.beq t t' && Shape.beq r r'
  | _, _ => false

def Variants.beq : Variants → Variants → Bool
  | .nil, .nil => true
  | .cons sh r, .cons sh' r' => Shape.beq sh sh' && Variants.beq r r'
  | _, _ => false
end

mutual
theorem Sch.beq_iff_sch : ∀ a b : Sch, Sch.beq a b = true ↔ a = b
  | .sstr, b => by cases b <;> simp [Sch.beq]
  | .sbool, b => by cases b <;> simp [Sch.beq]
  | .sint, b => by cases b <;> simp [Sch.beq]
  | .lit v, b => by cases b <;> simp [Sch.beq]
  | .raw k, b => by cases b <;> simp [Sch.beq]
  | .obj a c sh, b => by
      cases b with
      | obj a' c' sh' => simp [Sch.beq, Shape.beq_iff_shape sh sh', and_assoc]
      | _ => simp [Sch.beq]
  | .union a c d vs, b => by
      cases b with
      | union a' c' d' vs' => simp [Sch.beq, Variants.beq_iff_vars vs vs', and_assoc]
      | _ => simp [Sch.beq]

theorem Shape.beq_iff_shape : ∀ a b : Shape, Shape.beq a b = true ↔ a = b
  | .nil, b => by cases b <;> simp [Shape.beq]
  | .cons n t r, b => by
      cases b with
      | nil => simp [Shape.beq]
      | cons n' t' r' =>
          simp [Shape.beq, Sch.beq_iff_sch t t', Shape.beq_iff_shape r r', and_assoc]

theorem Variants.beq_iff_vars : ∀ a b : Variants, Variants.beq a b = true ↔ a = b
  | .nil, b => by cases b <;> simp [Variants.beq]
  | .cons sh r, b => by
      cases b with
      | nil => simp [Variants.beq]
      | cons sh' r' =>
          simp [Variants.beq, Shape.beq_iff_shape sh sh', Variants.beq_iff_vars r r']
end

instance : DecidableEq Sch := fun a b =>
  decidable_of_iff (Sch.beq a b = true) (Sch.beq_iff_sch a b)

instance : DecidableEq Shape := fun a b =>
  decidable_of_iff (Shape.beq a b = true) (Shape.beq_iff_shape a b)

instance : DecidableEq Variants := fun a b =>
  decidable_of_iff (Variants.beq a b = true) (Variants.beq_iff_vars a b)

/-- Field lookup in a record schema shape (type.shape[name]). -/
def Shape.find : Shape → String → Option Sch
  | .nil, _ => none
  | .cons n t r, m => if n = m then some t else r.find m

/-- Field names of a shape in declaration order. -/
def Shape.names : Shape → List String
  | .nil => []
  | .cons n _ r => n :: r.names

/-- Duplicate-freedom of a list of names. -/
def nodupB : List String → Bool
  | [] => true
  | x :: xs => !(xs.contains x) && nodupB xs

/-- Finds the first union variant whose discriminator field is a literal
schema with the given value (the options.find loop of writeUnion/readUnion). -/
def findVariant : Variants → String → JVal → Option Shape
  | .nil, _, _ => none
  | .cons sh r, disc, dv =>
      match sh.find disc with
      | some (.lit w) => if w = dv then some sh else findVariant r disc dv
      | _ => findVariant r disc dv

theorem findVariant_sizeOf : ∀ (vs : Variants) (disc : String) (dv : JVal)
    (sh : Shape), findVariant vs disc dv = some sh → sizeOf sh < sizeOf vs
  | .nil, disc, dv, sh, h => by simp [findVariant] at h
  | .cons sh' r, disc, dv, sh, h => by
      simp only [findVariant] at h
      have hr : findVariant r disc dv = some sh → sizeOf sh < sizeOf (Variants.cons sh' r) := by
        intro hh
        have := findVariant_sizeOf r disc dv sh hh
        simp only [Variants.cons.sizeOf_spec]
        omega
      match hfind : sh'.find disc with
      | some (.lit w) =>
          rw [hfind] at h
          by_cases hw : w = dv
          · simp [hw] at h
            subst h
            simp only [Variants.cons.sizeOf_spec]
            omega
          · simp [hw] at h
            exact hr h
      | none => rw [hfind] at h; exact hr h
      | some .sstr => rw [hfind] at h; exact hr h
      | some .sbool => rw [hfind] at h; exact hr h
      | some .sint => rw [hfind] at h; exact hr h
      | some (.raw k) => rw [hfind] at h; exact hr h
      | some (.obj a b c) => rw [hfind] at h; exact hr h
      | some (.union a b c d) => rw [hfind] at h; exact hr h

mutual
/-- Schema validation (zod parse / safeParse): returns the parsed value on
success, none on failure.  Record schemas require every declared field, strip
undeclared properties and return fields in declaration order; discriminated
unions select the variant whose discriminator literal equals the value's
discriminator property; raw container schemas are instance-of checks
accepting attached and detached instances alike. -/
def parseV : Sch → JVal → Option JVal
  | .sstr, .str s => some (.str s)
  | .sbool, .bool b => some (.bool b)
  | .sint, .int n => some (.int n)
  | .lit w, v => if v = w then some v else none
  | .raw k, .yref k' p => if k = k' then some (.yref k' p) else none
  | .raw k, .ydet k' => if k = k' then some (.ydet k') else none
  | .obj _ _ sh, .jobj fs => (parseShape sh fs).map .jobj
  | .union _ _ disc vs, .jobj fs => (parseVariants disc fs vs).map .jobj
  | _, _ => none

/-- Validates every field of a record shape against an object's properties,
producing the parsed fields in shape order. -/
def parseShape : Shape → JFields → Option JFields
  | .nil, _ => some .nil
  | .cons n t r, fs =>
      match fs.get n with
      | none => none
      | some w =>
          match parseV t w with
          | none => none
          | some w' => (parseShape r fs).map (.cons n w')

/-- Walks the variants of a discriminated union, validating against the first
one whose discriminator literal matches the object's discriminator value. -/
def parseVariants (disc : String) (fs : JFields) : Variants → Option JFields
  | .nil => none
  | .cons sh r =>
      match sh.find disc, fs.get disc with
      | some (.lit w), some dv =>
          if w = dv then parseShape sh fs else parseVariants disc fs r
      | _, _ => parseVariants disc fs r
end

/-- The variant walk validates with exactly the variant findVariant selects. -/
theorem parseVariants_eq_findVariant : ∀ (vs : Variants) (disc : String) (fs : JFields),
    parseVariants disc fs vs =
      match fs.get disc with
      | none => none
      | some dv =>
          match findVariant vs disc dv with
          | none => none
          | some vsh => parseShape vsh fs
  | .nil, disc, fs => by
      cases hg : fs.get disc <;> simp [parseVariants, findVariant]
  | .cons sh r, disc, fs => by
      rw [parseVariants]
      cases hg : fs.get disc with
      | none =>
          rw [parseVariants_eq_findVariant r disc fs, hg]
          cases hfd : sh.find disc with
          | none => rfl
          | some t => cases t <;> rfl
      | some dv =>
          rw [parseVariants_eq_findVariant r disc fs, hg]
          simp only [findVariant]
          cases hfd : sh.find disc with
          | none => rfl
          | some t =>
              cases t <;> try rfl
              next w =>
                by_cases hw : w = dv
                · simp [hw]
                · simp [hw]

/-- Storage kind of a non-root schema node, as both writeObject and readObject
derive it from the node kind and its syncAs / shallow metadata: nested record
sub-container, discriminated-union sub-container, raw shared container handle,
or inline value in the parent map. -/
inductive SKind where
  | subObj
  | subUnion
  | rawHandle (k : RKind)
  | inline
  deriving DecidableEq, Repr

def storeKind : Sch → SKind
  | .obj sm sh _ => if sh then (if sm then .rawHandle .ymap else .inline) else .subObj
  | .union sm sh _ _ => if sh then (if sm then .rawHandle .ymap else .inline) else .subUnion
  | .raw k => .rawHandle k
  | _ => .inline

mutual
/-- The recursive field-writing loop of writeObject (yjs-types writeObject,
with the recursive writeObject body inlined at its call sites).  Walks the
schema shape; fields absent from the data are skipped; nested records and
matched union variants recurse into the sub-container path after deleting the
nested key property; raw shared containers are never written; everything else
is set inline in the map at the current path.  Returns the transaction state
and the (mutated) data object. -/
def writeFields (w : TxDoc) (p : Path) (data : JFields) : Shape → TxDoc × JFields
  | .nil => (w, data)
  | .cons f t rest =>
      match data.get f with
      | none => writeFields w p data rest
      | some v =>
          match t with
          | .obj sm true _ =>
              if sm then writeFields w p data rest
              else writeFields (mapSet w p f v) p data rest
          | .obj _ false sub =>
              match v with
              | .jobj gs =>
                  let r := writeFields w (p ++ [f]) (gs.del "key") sub
                  writeFields r.1 p (data.set f (.jobj r.2)) rest
              | _ => writeFields w p data rest
          | .union sm true _ _ =>
              if sm then writeFields w p data rest
              else writeFields (mapSet w p f v) p data rest
          | .union _ false disc vs =>
              match v with
              | .jobj gs =>
                  let r := writeVariants w (p ++ [f]) gs disc vs
                  writeFields r.1 p (data.set f (.jobj r.2)) rest
              | _ => writeFields w p data rest
          | .raw _ => writeFields w p data rest
          | _ => writeFields (mapSet w p f v) p data rest

/-- writeUnion: walks the variants; the first one whose discriminator literal
equals the payload's discriminator value is written as a record (whose
writeObject entry deletes the payload's key property); with no match the
write is silently dropped. -/
def writeVariants (w : TxDoc) (p : Path) (gs : JFields) (disc : String) :
    Variants → TxDoc × JFields
  | .nil => (w, gs)
  | .cons sh r =>
      match sh.find disc, gs.get disc with
      | some (.lit dw), some dv =>
          if dw = dv then writeFields w p (gs.del "key") sh
          else writeVariants w p gs disc r
      | _, _ => writeVariants w p gs disc r
end

/-- writeObject: deletes the key property from the data, then writes every
present field per its storage kind. -/
def writeObjectW (w : TxDoc) (p : Path) (v : JVal) (sh : Shape) : TxDoc × JVal :=
  match v with
  | .jobj fs =>
      let r := writeFields w p (fs.del "key") sh
      (r.1, .jobj r.2)
  | v => (w, v)

/-- writeData: under one transaction, the recursive row write at path
table.key, then (for upserts) setting the table-index entry to true. -/
def writeData (doc : Doc) (tname : String) (key : String) (v : JVal)
    (up : Bool) (sh : Shape) : TxDoc × JVal :=
  let r := writeObjectW ⟨doc, []⟩ [tname, key] v sh
  (if up then mapSet r.1 [tname] key (.bool true) else r.1, r.2)

mutual
/-- The recursive field-reading loop of readObject (yjs-types readObject, with
the recursive readObject / readUnion bodies inlined).  Assembles the data
object for a shape; a nested record or union sub-read returning null aborts
the whole read with null; raw container fields are the attached handles at
their paths (doc.get auto-allocates); inline fields absent from the map are
left absent in the data. -/
def readFields (doc : Doc) (p : Path) : Shape → Option JFields
  | .nil => some .nil
  | .cons f t rest =>
      match t with
      | .obj sm true _ =>
          if sm then
            (readFields doc p rest).map (fun a => a.set f (.yref .ymap (p ++ [f])))
          else
            match (doc.getMap p).get f with
            | none => readFields doc p rest
            | some w => (readFields doc p rest).map (fun a => a.set f w)
      | .obj sm false sub =>
          match readFields doc (p ++ [f]) sub with
          | none => none
          | some a =>
              match parseV (.obj sm false sub) (.jobj a) with
              | none => none
              | some v => (readFields doc p rest).map (fun a' => a'.set f v)
      | .union sm true _ _ =>
          if sm then
            (readFields doc p rest).map (fun a => a.set f (.yref .ymap (p ++ [f])))
          else
            match (doc.getMap p).get f with
            | none => readFields doc p rest
            | some w => (readFields doc p rest).map (fun a => a.set f w)
      | .union _ false disc vs =>
          match (doc.getMap (p ++ [f])).get disc with
          | none => none
          | some dv =>
              match readVariants doc (p ++ [f]) dv disc vs with
              | none => none
              | some v => (readFields doc p rest).map (fun a' => a'.set f v)
      | .raw k =>
          (readFields doc p rest).map (fun a => a.set f (.yref k (p ++ [f])))
      | _ =>
          match (doc.getMap p).get f with
          | none => readFields doc p rest
          | some w => (readFields doc p rest).map (fun a => a.set f w)

/-- readUnion's variant selection: reads the first variant whose discriminator
literal equals the stored discriminator value as a record at the union's
path, validated with the variant schema; an unknown discriminator reads as
null. -/
def readVariants (doc : Doc) (p : Path) (dv : JVal) (disc : String) :
    Variants → Option JVal
  | .nil => none
  | .cons sh r =>
      match sh.find disc with
      | some (.lit w) =>
          if w = dv then
            match readFields doc p sh with
            | none => none
            | some a => parseV (.obj false false sh) (.jobj a)
          else readVariants doc p dv disc r
      | _ => readVariants doc p dv disc r
end

/-- readObject: assemble the data for the shape, synthesise the key property
from the row key when requested and declared, then validate; a validation
failure reads as null. -/
def readObjectR (doc : Doc) (p : Path) (sh : Shape) (uk : Option String) :
    Option JVal :=
  match readFields doc p sh with
  | none => none
  | some data =>
      let data' :=
        match uk with
        | some k => if (sh.find "key").isSome then data.set "key" (.str k) else data
        | none => data
      parseV (.obj false false sh) (.jobj data')

/-- A table declaration: globally unique name plus row schema shape.  The row
schema is a plain z.object, so its node carries no metadata. -/
structure Table where
  name : String
  shape : Shape

/-- The row schema as a zod object type (table.type). -/
def rowSch (T : Table) : Sch := .obj false false T.shape

/-- readData: the index-checking public read entry point. -/
def readData (doc : Doc) (T : Table) (key : String) : Option JVal :=
  if (doc.getMap [T.name]).has key
  then readObjectR doc [T.name, key] T.shape (some key)
  else none

/-- readDataPresent: the internal entry point that skips the index check,
used by select and the watcher to probe rows. -/
def readDataPresent (doc : Doc) (T : Table) (key : String) : Option JVal :=
  readObjectR doc [T.name, key] T.shape (some key)

/-- getKey (view.ts): point read through readData. -/
def getKey (doc : Doc) (T : Table) (key : String) : Option JVal :=
  readData doc T key

/-- Filters are pure predicates over the shallow row container. -/
def Filter := JFields → Bool

/-- The filter accepting any row. -/
def anyF : Filter := fun _ => true

/-- Inline-field equality filter (eq). -/
def eqF (key : String) (v : JVal) : Filter := fun row => row.get key = some v

/-- Filter negation (not). -/
def notF (f : Filter) : Filter := fun row => !(f row)

/-- Short-circuit conjunction of filters (and). -/
def andF (fs : List Filter) : Filter := fun row => fs.all (fun f => f row)

/-- Short-circuit disjunction of filters (or). -/
def orF (fs : List Filter) : Filter := fun row => fs.any (fun f => f row)

/-- select (view.ts): iterate live keys of the table index, filter on the
shallow row container, fully read the matches and drop rows that read null. -/
def selectR (doc : Doc) (T : Table) (q : Filter) : List JVal :=
  (doc.getMap [T.name]).names.filterMap (fun k =>
    if q (doc.getMap [T.name, k]) then readDataPresent doc T k else none)

/-- The row key as the source extracts it (row.key, a string). -/
def rowKey (row : JVal) : String :=
  match row with
  | .jobj fs =>
      match fs.get "key" with
      | some (.str k) => k
      | _ => ""
  | _ => ""

/-- upsert (update.ts): validate the full row (table.type.parse throws on
failure, modelled as the first component; the document is untouched in that
case), then writeData with the upsert flag. -/
def upsert (doc : Doc) (T : Table) (row : JVal) : Option String × TxDoc :=
  match parseV (rowSch T) row with
  | none => (some "row does not match table schema", ⟨doc, []⟩)
  | some v => (none, (writeData doc T.name (rowKey row) v true T.shape).1)

/-- update (update.ts): writeData without the upsert flag; no validation.
The second component of the result is the caller's partial object after the
call (writeObject mutates it in place). -/
def updateOp (doc : Doc) (T : Table) (u : JVal) : TxDoc × JVal :=
  writeData doc T.name (rowKey u) u false T.shape

/-- remove (update.ts): soft delete, removing the key from the table index
container only. -/
def removeOp (doc : Doc) (T : Table) (key : String) : TxDoc :=
  mapDel ⟨doc, []⟩ [T.name] key

/-- Models a table-index entry arriving by itself, e.g. partial replication
of a remote upsert, or the direct container access the repository's own tests
use (doc.getMap(table.name) manipulation in watch.test.ts). -/
def indexSet (doc : Doc) (T : Table) (key : String) : TxDoc :=
  mapSet ⟨doc, []⟩ [T.name] key (.bool true)

mutual
/-- The value a validated read yields for a stored value of a schema node at
a path: raw shared-container fields (and shallow nodes explicitly synced as
maps) read back as the attached handle at their path, sub-container records
and matched union variants recurse, and everything else reads back as
written. -/
def eReadV (p : Path) (t : Sch) (w : JVal) : JVal :=
  match t with
  | .raw k => .yref k p
  | .obj sm true _ => if sm then .yref .ymap p else w
  | .obj _ false sh =>
      match w with
      | .jobj fs => .jobj (eReadF p sh fs)
      | _ => w
  | .union sm true _ _ => if sm then .yref .ymap p else w
  | .union _ false disc vs =>
      match w with
      | .jobj fs => eReadVariants p fs ((fs.get disc).getD (.bool false)) disc vs w
      | _ => w
  | _ => w

/-- Field-wise expected read results for a record shape. -/
def eReadF (p : Path) (sh : Shape) (fs : JFields) : JFields :=
  match sh with
  | .nil => .nil
  | .cons f t rest =>
      .cons f (eReadV (p ++ [f]) t ((fs.get f).getD (.bool false)))
        (eReadF p rest fs)

/-- Expected read result through the matched variant of a union. -/
def eReadVariants (p : Path) (fs : JFields) (dv : JVal) (disc : String) :
    Variants → JVal → JVal
  | .nil, w => w
  | .cons sh r, w =>
      match sh.find disc with
      | some (.lit dw) =>
          if dw = dv then .jobj (eReadF p sh fs) else eReadVariants p fs dv disc r w
      | _ => eReadVariants p fs dv disc r w
end

mutual
/-- Well-formedness of a schema node for the round-trip theorems: shallow
nodes must not also carry an explicit syncAs Y.Map entry (that combination
stores a raw handle and can never read back as an object), and every
sub-container record or union variant shape must have duplicate-free field
names, none of them the reserved name key. -/
def goodSch : Sch → Bool
  | .obj sm sh shape =>
      if sh then !sm
      else nodupB shape.names && !(shape.names.contains "key") && goodShape shape
  | .union sm sh _ vs => if sh then !sm else goodVars vs
  | _ => true

def goodShape : Shape → Bool
  | .nil => true
  | .cons _ t rest => goodSch t && goodShape rest

def goodVars : Variants → Bool
  | .nil => true
  | .cons sh rest =>
      nodupB sh.names && !(sh.names.contains "key") && goodShape sh && goodVars rest
end

/-- Well-formedness of a sub-container shape: duplicate-free names, no field
named key, well-formed field schemas. -/
def goodSubShape (sh : Shape) : Bool :=
  nodupB sh.names && !(sh.names.contains "key") && goodShape sh

/-- Well-formedness of a table for the round-trip theorems: duplicate-free
field names, a string-typed key field, and well-formed field schemas. -/
def goodTable (T : Table) : Bool :=
  nodupB T.shape.names &&
    (match T.shape.find "key" with
     | some .sstr => true
     | _ => false) &&
    goodShape T.shape

mutual
/-- A schema contains no raw shared-container storage anywhere reachable —
no raw nodes and no shallow node explicitly synced as a map — and every
reachable record shape has duplicate-free field names. -/
def dataOnly : Sch → Bool
  | .raw _ => false
  | .obj sm sh shape => if sh then !sm else nodupB shape.names && dataOnlyShape shape
  | .union sm sh _ vs => if sh then !sm else dataOnlyVars vs
  | _ => true

def dataOnlyShape : Shape → Bool
  | .nil => true
  | .cons _ t rest => dataOnly t && dataOnlyShape rest

def dataOnlyVars : Variants → Bool
  | .nil => true
  | .cons sh rest => nodupB sh.names && dataOnlyShape sh && dataOnlyVars rest
end

/-- Watch levels (view.ts WatchLevel). -/
inductive WatchLevel where
  | keys
  | content
  | deep
  deriving DecidableEq, Repr

/-- One callback invocation of a watch subscription: the added, removed and
changed row groups (visibleData is part of the subscription state). -/
structure Emission where
  added : List JVal
  removed : List JVal
  changed : List JVal
  deriving DecidableEq

/-- What an attached observer callback does when it fires: the table-index
handler from observeKeys, the per-row content watcher from observeRow, or the
deep wait-until-valid watcher from the pending branch of addRows. -/
inductive ObsRole where
  | tableIdx
  | rowContent (k : String)
  | rowWaiter (k : String)
  deriving DecidableEq, Repr

/-- An observer attached to the container at a path, shallowly
(container.observe) or deeply (container.observeDeep). -/
structure Obs where
  path : Path
  deepO : Bool
  role : ObsRole
  deriving DecidableEq, Repr

/-- What the rowUnobservers map stores for a key: either a disposer closure
that unobserves the recorded observer (the observeRow case), or - as the
pending branch of addRows actually stores - the wait-until-valid watcher
function itself, so that calling the map entry runs the watcher body instead
of unobserving anything. -/
inductive UnVal where
  | disp (path : Path) (deepO : Bool) (role : ObsRole)
  | waiterFn (k : String)
  deriving DecidableEq, Repr

/-- Per-subscription mutable state of watch: visibleData, the attached
observers, and the rowUnobservers map. -/
structure WSt where
  visible : JFields
  obs : List Obs
  unobs : List (String × UnVal)
  deriving DecidableEq

/-- A subscription: table, filter, level (the callback is implicit; emissions
are collected as data). -/
structure SubCfg where
  T : Table
  q : Filter
  level : WatchLevel

def SubCfg.watchContent (cfg : SubCfg) : Bool :=
  cfg.level = .content ∨ cfg.level = .deep

def SubCfg.watchDeep (cfg : SubCfg) : Bool := cfg.level = .deep

/-- Association-list lookup for the rowUnobservers map. -/
def lookupS {α : Type} : List (String × α) → String → Option α
  | [], _ => none
  | (n, a) :: r, m => if n = m then some a else lookupS r m

/-- Association-list update for the rowUnobservers map. -/
def setS {α : Type} : List (String × α) → String → α → List (String × α)
  | [], m, a => [(m, a)]
  | (n, b) :: r, m, a => if n = m then (n, a) :: r else (n, b) :: setS r m a

/-- Removes the first occurrence of an observer from the attachment list
(container.unobserve / unobserveDeep). -/
def removeObs : List Obs → Obs → List Obs
  | [], _ => []
  | o :: r, o' => if o = o' then r else o :: removeObs r o'

/-- The table-index observer of a subscription. -/
def idxObs (cfg : SubCfg) : Obs := ⟨[cfg.T.name], false, .tableIdx⟩

/-- The per-row content observer of a subscription (shallow for content
level, deep for deep level). -/
def rowObs (cfg : SubCfg) (k : String) : Obs :=
  ⟨[cfg.T.name, k], cfg.watchDeep, .rowContent k⟩

/-- The deep wait-until-valid observer for a pending row. -/
def waiterObs (cfg : SubCfg) (k : String) : Obs :=
  ⟨[cfg.T.name, k], true, .rowWaiter k⟩

/-- addRows (view.ts): classify each key against the filter on the shallow
row container; matching keys are fully read - valid rows are recorded in
visibleData and (at content or deep level) get a row observer, invalid rows
get a deep wait-until-valid observer whose raw watcher function is stored in
rowUnobservers.  Returns the added rows, the keys that no longer match the
filter, and the new state. -/
def addRowsW (cfg : SubCfg) (doc : Doc) : List String → WSt → List JVal × List String × WSt
  | [], st => ([], [], st)
  | k :: ks, st =>
      if cfg.q (doc.getMap [cfg.T.name, k]) then
        match readDataPresent doc cfg.T k with
        | some d =>
            let st1 : WSt :=
              { visible := st.visible.set k d
                obs := if cfg.watchContent then st.obs ++ [rowObs cfg k] else st.obs
                unobs := if cfg.watchContent
                         then setS st.unobs k (.disp [cfg.T.name, k] cfg.watchDeep (.rowContent k))
                         else st.unobs }
            let r := addRowsW cfg doc ks st1
            (d :: r.1, r.2.1, r.2.2)
        | none =>
            let st1 : WSt :=
              { visible := st.visible
                obs := st.obs ++ [waiterObs cfg k]
                unobs := setS st.unobs k (.waiterFn k) }
            addRowsW cfg doc ks st1
      else
        let r := addRowsW cfg doc ks st
        (r.1, k :: r.2.1, r.2.2)

/-- Calling the rowUnobservers entry for a key, as the handler and the row
watcher do.  A disposer detaches its observer; a stored wait-until-valid
watcher function instead runs its body: re-read the row and, if it now
validates, run addRows for the key (whose emissions are discarded). -/
def callUnobsW (cfg : SubCfg) (doc : Doc) (k : String) (st : WSt) : WSt :=
  match lookupS st.unobs k with
  | none => st
  | some (.disp path dp role) => { st with obs := removeObs st.obs ⟨path, dp, role⟩ }
  | some (.waiterFn k') =>
      match readDataPresent doc cfg.T k' with
      | some _ => (addRowsW cfg doc [k'] st).2.2
      | none => st

/-- The body of the per-row content watcher (observeRow's rowWatcher): if the
row no longer matches the filter, call the rowUnobservers entry and emit the
previously visible value as removed; otherwise re-read, and on a valid read
update visibleData and emit as changed (an invalid read is a partial
replication window and does nothing). -/
def rowContentBody (cfg : SubCfg) (doc : Doc) (k : String) (st : WSt) :
    List Emission × WSt :=
  if cfg.q (doc.getMap [cfg.T.name, k]) then
    match readDataPresent doc cfg.T k with
    | some d => ([⟨[], [], [d]⟩], { st with visible := st.visible.set k d })
    | none => ([], st)
  else
    let st1 := callUnobsW cfg doc k st
    match st1.visible.get k with
    | some v => ([⟨[], [v], []⟩], { st1 with visible := st1.visible.del k })
    | none => ([], st1)

/-- The body of the deep wait-until-valid watcher (the rowWatcher closure of
addRows' pending branch): re-read the row; when it validates, run addRows for
the key.  The added rows addRows computes are discarded and no emission is
produced; the deep waiter itself is not unobserved. -/
def rowWaiterBody (cfg : SubCfg) (doc : Doc) (k : String) (st : WSt) :
    List Emission × WSt :=
  match readDataPresent doc cfg.T k with
  | some _ => ([], (addRowsW cfg doc [k] st).2.2)
  | none => ([], st)

/-- The table-index handler (watch's handler fed by observeKeys): admit added
keys through addRows, then for removed keys and keys that stopped matching
drop them from visibleData (collecting previously visible values as removed)
and call their rowUnobservers entry; a single callback reports the additions
and removals together, suppressed when both are empty. -/
def tableIdxBody (cfg : SubCfg) (doc : Doc) (addedKs removedKs : List String)
    (st : WSt) : List Emission × WSt :=
  let a := addRowsW cfg doc addedKs st
  let rem := (removedKs ++ a.2.1).foldl
    (fun (acc : List JVal × WSt) k =>
      let acc1 :=
        match acc.2.visible.get k with
        | some d => (acc.1 ++ [d], { acc.2 with visible := acc.2.visible.del k })
        | none => acc
      (acc1.1, callUnobsW cfg doc k acc1.2))
    ([], a.2.2)
  if a.1.isEmpty ∧ rem.1.isEmpty then ([], rem.2)
  else ([⟨a.1, rem.1, []⟩], rem.2)

/-- Whether an observer fires for a transaction's changes: a shallow observer
when its container itself changed, a deep observer when any container at or
beneath its path changed (the replicated-document runtime contract of the
specification). -/
def fires (o : Obs) (cs : List Change) : Bool :=
  if o.deepO then cs.any (fun c => o.path.isPrefixOf c.path)
  else cs.any (fun c => c.path = o.path)

/-- Runs one observer's callback for a committed transaction. -/
def runObs (cfg : SubCfg) (doc : Doc) (cs : List Change) (st : WSt) (o : Obs) :
    List Emission × WSt :=
  match o.role with
  | .tableIdx =>
      let aK := (cs.filter (fun c => c.path = [cfg.T.name] ∧ c.act = .add)).map (·.key)
      let rK := (cs.filter (fun c => c.path = [cfg.T.name] ∧ c.act = .del)).map (·.key)
      if aK.isEmpty ∧ rK.isEmpty then ([], st)
      else tableIdxBody cfg doc aK rK st
  | .rowContent k => rowContentBody cfg doc k st
  | .rowWaiter k => rowWaiterBody cfg doc k st

/-- Delivers a committed transaction to a subscription: every observer
attached at commit time whose trigger condition matches runs once, in
attachment order; emissions are concatenated. -/
def deliverTxn (cfg : SubCfg) (doc : Doc) (cs : List Change) (st : WSt) :
    List Emission × WSt :=
  st.obs.foldl
    (fun (acc : List Emission × WSt) o =>
      if fires o cs then
        let r := runObs cfg doc cs acc.2 o
        (acc.1 ++ r.1, r.2)
      else acc)
    ([], st)

/-- watch (view.ts): attach the table-index observer, then synchronously seed
from the current index keys through addRows; a single seeding callback
delivers the initial rows when there are any. -/
def watchInit (cfg : SubCfg) (doc : Doc) : List Emission × WSt :=
  let st0 : WSt := ⟨.nil, [idxObs cfg], []⟩
  let a := addRowsW cfg doc (doc.getMap [cfg.T.name]).names st0
  (if a.1.isEmpty then [] else [⟨a.1, [], []⟩], a.2.2)

theorem Shape.find_sizeOf : ∀ (sh : Shape) (f : String) (t : Sch),
    sh.find f = some t → sizeOf t < sizeOf sh
  | .nil, f, t, h => by simp [Shape.find] at h
  | .cons n t0 r, f, t, h => by
      by_cases hn : n = f
      · simp [Shape.find, hn] at h
        subst h
        simp only [Shape.cons.sizeOf_spec]
        omega
      · simp [Shape.find, hn] at h
        have := Shape.find_sizeOf r f t h
        simp only [Shape.cons.sizeOf_spec]
        omega

theorem goodShape_find : ∀ (sh : Shape) (f : String) (t : Sch),
    goodShape sh = true → sh.find f = some t → goodSch t = true
  | .nil, f, t, hg, h => by simp [Shape.find] at h
  | .cons n t0 r, f, t, hg, h => by
      rw [goodShape] at hg
      simp at hg
      by_cases hn : n = f
      · simp [Shape.find, hn] at h
        subst h
        exact hg.1
      · simp [Shape.find, hn] at h
        exact goodShape_find r f t hg.2 h

theorem dataOnlyShape_find : ∀ (sh : Shape) (f : String) (t : Sch),
    dataOnlyShape sh = true → sh.find f = some t → dataOnly t = true
  | .nil, f, t, hg, h => by simp [Shape.find] at h
  | .cons n t0 r, f, t, hg, h => by
      rw [dataOnlyShape] at hg
      simp at hg
      by_cases hn : n = f
      · simp [Shape.find, hn] at h
        subst h
        exact hg.1
      · simp [Shape.find, hn] at h
        exact dataOnlyShape_find r f t hg.2 h

/-- The variant findVariant selects satisfies the per-variant well-formedness
conditions of a good union, and its discriminator field is the matched
literal. -/
theorem goodVars_findVariant : ∀ (vs : Variants) (disc : String) (dv : JVal)
    (vsh : Shape), goodVars vs = true → findVariant vs disc dv = some vsh →
    nodupB vsh.names = true ∧ "key" ∉ vsh.names
      ∧ goodShape vsh = true ∧ vsh.find disc = some (.lit dv)
  | .nil, disc, dv, vsh, hg, h => by simp [findVariant] at h
  | .cons sh r, disc, dv, vsh, hg, h => by
      rw [goodVars] at hg
      simp at hg
      obtain ⟨⟨⟨ha, hb⟩, hc⟩, hd⟩ := hg
      rw [findVariant] at h
      match hfd : sh.find disc with
      | some (.lit w) =>
          rw [hfd] at h
          by_cases hw : w = dv
          · simp [hw] at h
            subst h
            subst hw
            exact ⟨ha, hb, hc, hfd⟩
          · simp [hw] at h
            exact goodVars_findVariant r disc dv vsh hd h
      | none => rw [hfd] at h; exact goodVars_findVariant r disc dv vsh hd h
      | some .sstr => rw [hfd] at h; exact goodVars_findVariant r disc dv vsh hd h
      | some .sbool => rw [hfd] at h; exact goodVars_findVariant r disc dv vsh hd h
      | some .sint => rw [hfd] at h; exact goodVars_findVariant r disc dv vsh hd h
      | some (.raw k) => rw [hfd] at h; exact goodVars_findVariant r disc dv vsh hd h
      | some (.obj a b c) => rw [hfd] at h; exact goodVars_findVariant r disc dv vsh hd h
      | some (.union a b c d) => rw [hfd] at h; exact goodVars_findVariant r disc dv vsh hd h

/-- writeUnion's variant walk writes with exactly the variant findVariant
selects (and is a no-op when none matches). -/
theorem writeVariants_eq_findVariant : ∀ (vs : Variants) (w : TxDoc) (p : Path)
    (gs : JFields) (disc : String),
    writeVariants w p gs disc vs =
      match gs.get disc with
      | none => (w, gs)
      | some dv =>
          match findVariant vs disc dv with
          | none => (w, gs)
          | some vsh => writeFields w p (gs.del "key") vsh
  | .nil, w, p, gs, disc => by
      cases hg : gs.get disc <;> simp [writeVariants, findVariant]
  | .cons sh r, w, p, gs, disc => by
      rw [writeVariants]
      cases hg : gs.get disc with
      | none =>
          rw [writeVariants_eq_findVariant r w p gs disc, hg]
          cases hfd : sh.find disc with
          | none => rfl
          | some t => cases t <;> rfl
      | some dv =>
          rw [writeVariants_eq_findVariant r w p gs disc, hg]
          simp only [findVariant]
          cases hfd : sh.find disc with
          | none => rfl
          | some t =>
              cases t <;> try rfl
              next v =>
                by_cases hw : v = dv
                · simp [hw]
                · simp [hw]

/-- readUnion's variant walk reads with exactly the variant findVariant
selects. -/
theorem readVariants_eq_findVariant : ∀ (vs : Variants) (doc : Doc) (p : Path)
    (dv : JVal) (disc : String),
    readVariants doc p dv disc vs =
      match findVariant vs disc dv with
      | none => none
      | some vsh =>
          match readFields doc p vsh with
          | none => none
          | some a => parseV (.obj false false vsh) (.jobj a)
  | .nil, doc, p, dv, disc => by simp [readVariants, findVariant]
  | .cons sh r, doc, p, dv, disc => by
      rw [readVariants]
      rw [readVariants_eq_findVariant r doc p dv disc]
      simp only [findVariant]
      cases hfd : sh.find disc with
      | none => rfl
      | some t =>
          cases t <;> try rfl
          next v =>
            by_cases hw : v = dv
            · simp [hw]
            · simp [hw]

/-- The expected union read goes through exactly the variant findVariant
selects. -/
theorem eReadVariants_eq_findVariant : ∀ (vs : Variants) (p : Path)
    (fs : JFields) (dv : JVal) (disc : String) (w : JVal),
    eReadVariants p fs dv disc vs w =
      match findVariant vs disc dv with
      | none => w
      | some vsh => .jobj (eReadF p vsh fs)
  | .nil, p, fs, dv, disc, w => by simp [eReadVariants, findVariant]
  | .cons sh r, p, fs, dv, disc, w => by
      rw [eReadVariants]
      rw [eReadVariants_eq_findVariant r p fs dv disc w]
      simp only [findVariant]
      cases hfd : sh.find disc with
      | none => rfl
      | some t =>
          cases t <;> try rfl
          next v =>
            by_cases hw : v = dv
            · simp [hw]
            · simp [hw]

/-- A parse fixpoint of a non-shallow record node is an object whose fields
fix parseShape. -/
theorem parseV_obj_fix_inv (sm : Bool) (sub : Shape) (v : JVal)
    (h : parseV (.obj sm false sub) v = some v) :
    ∃ gs, v = .jobj gs ∧ parseShape sub gs = some gs := by
  match v with
  | .jobj gs =>
      rw [parseV] at h
      refine ⟨gs, rfl, ?_⟩
      match hps : parseShape sub gs with
      | none => rw [hps] at h; simp at h
      | some out =>
          rw [hps] at h
          simp at h
          rw [h]
  | .str _ => simp [parseV] at h
  | .bool _ => simp [parseV] at h
  | .int _ => simp [parseV] at h
  | .yref _ _ => simp [parseV] at h
  | .ydet _ => simp [parseV] at h

/-- A parse fixpoint of a non-shallow union node is an object carrying a
discriminator matched by some variant, whose fields fix parseShape for that
variant. -/
theorem parseV_union_fix_inv (sm : Bool) (disc : String) (vs : Variants)
    (v : JVal) (h : parseV (.union sm false disc vs) v = some v) :
    ∃ gs dv vsh, v = .jobj gs ∧ gs.get disc = some dv
      ∧ findVariant vs disc dv = some vsh ∧ parseShape vsh gs = some gs := by
  match v with
  | .jobj gs =>
      rw [parseV] at h
      rw [parseVariants_eq_findVariant] at h
      split at h
      · simp at h
      next dv hg =>
        split at h
        · simp at h
        next vsh hfd =>
          match hps : parseShape vsh gs with
          | none => rw [hps] at h; simp at h
          | some out =>
              rw [hps] at h
              simp at h
              rw [h] at hps
              exact ⟨gs, dv, vsh, rfl, hg, hfd, hps⟩
  | .str _ => simp [parseV] at h
  | .bool _ => simp [parseV] at h
  | .int _ => simp [parseV] at h
  | .yref _ _ => simp [parseV] at h
  | .ydet _ => simp [parseV] at h

/-- Applies a mutation under a fresh transaction to a document watched by one
subscription, delivering the commit to the subscription. -/
def stepTxn (cfg : SubCfg) (st : WSt) (doc : Doc) (m : Doc → TxDoc) :
    Doc × List Emission × WSt :=
  let w := m doc
  let r := deliverTxn cfg w.doc w.log st
  (w.doc, r.1, r.2)

/-- Total number of rows reported as changed across the emissions of one
transaction. -/
def changedCount (es : List Emission) : Nat :=
  (es.map (fun e => e.changed.length)).sum

/-- The observers watch has attached once it admitted a single visible row on
an otherwise quiet table: the table-index observer, plus the per-row observer
unless the level is keys. -/
def admittedObs (cfg : SubCfg) (k : String) : List Obs :=
  idxObs cfg :: (if cfg.level = .keys then [] else [rowObs cfg k])

/-! Helper facts about shapes, parsing and read results shared by several
claims. -/

theorem Shape.find_isSome_iff_mem_names : ∀ (sh : Shape) (n : String),
    (sh.find n).isSome ↔ n ∈ sh.names
  | .nil, n => by simp [Shape.find, Shape.names]
  | .cons m t r, n => by
      by_cases h : m = n <;>
        simp [Shape.find, Shape.names, h, Shape.find_isSome_iff_mem_names r n, eq_comm]

theorem parseShape_cons_inv (n : String) (t : Sch) (r : Shape) (fs out : JFields)
    (h : parseShape (.cons n t r) fs = some out) :
    ∃ w w' ro, fs.get n = some w ∧ parseV t w = some w' ∧
      parseShape r fs = some ro ∧ out = .cons n w' ro := by
  rw [parseShape] at h
  split at h
  · simp at h
  · split at h
    · simp at h
    · rw [Option.map_eq_some'] at h
      obtain ⟨ro, hr, hco⟩ := h
      exact ⟨_, _, ro, by assumption, by assumption, hr, hco.symm⟩

theorem parseShape_names : ∀ (sh : Shape) (fs out : JFields),
    parseShape sh fs = some out → out.names = sh.names
  | .nil, fs, out, h => by
      simp [parseShape] at h
      simp [← h, JFields.names, Shape.names]
  | .cons n t r, fs, out, h => by
      obtain ⟨w, w', ro, hg, hp, hr, hco⟩ := parseShape_cons_inv n t r fs out h
      subst hco
      simp [JFields.names, Shape.names, parseShape_names r fs ro hr]

theorem parseShape_get : ∀ (sh : Shape) (fs out : JFields),
    parseShape sh fs = some out → ∀ (n : String) (t : Sch), sh.find n = some t →
    ∃ v v', fs.get n = some v ∧ parseV t v = some v' ∧ out.get n = some v'
  | .nil, fs, out, h, n, t, hf => by simp [Shape.find] at hf
  | .cons m t0 r, fs, out, h, n, t, hf => by
      obtain ⟨w, w', ro, hg, hp, hr, hco⟩ := parseShape_cons_inv m t0 r fs out h
      subst hco
      by_cases hm : m = n
      · subst hm
        simp [Shape.find] at hf
        subst hf
        exact ⟨w, w', hg, hp, by simp [JFields.get]⟩
      · simp [Shape.find, hm] at hf
        obtain ⟨v, v', h1, h2, h3⟩ := parseShape_get r fs ro hr n t hf
        exact ⟨v, v', h1, h2, by simp [JFields.get, hm, h3]⟩

/-- Fields of a shape-fixing object are themselves parse fixpoints. -/
theorem parseShape_fix_pointwise (sh : Shape) (fs : JFields)
    (h : parseShape sh fs = some fs) :
    ∀ f t, sh.find f = some t → ∃ v, fs.get f = some v ∧ parseV t v = some v := by
  intro f t hf
  obtain ⟨v, v2, h1, h2, h3⟩ := parseShape_get sh fs fs h f t hf
  have hv : v = v2 := by
    rw [h1] at h3
    injection h3
  subst hv
  exact ⟨v, h1, h2⟩

theorem parseV_str_result (t : Sch) (s : String) (v : JVal)
    (h : parseV t (.str s) = some v) : v = .str s := by
  match t with
  | .sstr => simp [parseV] at h; exact h.symm
  | .sbool => simp [parseV] at h
  | .sint => simp [parseV] at h
  | .lit w =>
      rw [parseV] at h
      by_cases hw : JVal.str s = w
      · simp [hw] at h
        simp [← h, ← hw]
      · simp [hw] at h
  | .raw k => simp [parseV] at h
  | .obj a b c => simp [parseV] at h
  | .union a b c d => simp [parseV] at h

/-- A validated read keyed with a row key yields a row whose key property is
either absent (key not declared) or exactly that key. -/
theorem readObjectR_key (doc : Doc) (p : Path) (sh : Shape) (k : String)
    (r : JVal) (h : readObjectR doc p sh (some k) = some r) :
    ∃ out, r = .jobj out ∧ (out.get "key" = none ∨ out.get "key" = some (.str k)) := by
  rw [readObjectR] at h
  match hrf : readFields doc p sh with
  | none => rw [hrf] at h; simp at h
  | some data =>
      rw [hrf] at h
      simp only [parseV] at h
      by_cases hk : (sh.find "key").isSome
      · simp only [hk, if_true] at h
        match hps : parseShape sh (data.set "key" (.str k)) with
        | none => rw [hps] at h; simp at h
        | some out =>
            rw [hps] at h
            simp at h
            refine ⟨out, h.symm, ?_⟩
            obtain ⟨t, ht⟩ := Option.isSome_iff_exists.1 hk
            obtain ⟨v, v', h1, h2, h3⟩ := parseShape_get sh _ out hps "key" t ht
            rw [JFields.get_set_self] at h1
            cases h1
            right
            rw [h3, parseV_str_result t k v' h2]
      · rw [Bool.not_eq_true] at hk
        simp only [hk, Bool.false_eq_true, if_false] at h
        match hps : parseShape sh data with
        | none => rw [hps] at h; simp at h
        | some out =>
            rw [hps] at h
            simp at h
            refine ⟨out, h.symm, Or.inl ?_⟩
            have hn := parseShape_names sh data out hps
            by_cases hgk : (out.get "key").isSome
            · exfalso
              have := JFields.mem_names_of_get_isSome out "key" hgk
              rw [hn] at this
              rw [← Shape.find_isSome_iff_mem_names] at this
              rw [hk] at this
              simp at this
            · exact Option.not_isSome_iff_eq_none.1 hgk

/-- Every selected row is the validated read of some live index key, and
carries that key (when a key field is declared). -/
theorem selectR_mem (doc : Doc) (T : Table) (q : Filter) (r : JVal)
    (h : r ∈ selectR doc T q) :
    ∃ k', k' ∈ (doc.getMap [T.name]).names ∧ readDataPresent doc T k' = some r := by
  rw [selectR, List.mem_filterMap] at h
  obtain ⟨k', hk', hr⟩ := h
  by_cases hq : q (doc.getMap [T.name, k'])
  · rw [if_pos hq] at hr
    exact ⟨k', hk', hr⟩
  · rw [if_neg hq] at hr
    exact absurd hr (by simp)

/-- Claim C9 — remove(doc, T, k) deletes only the table-index entry of k:
afterwards getKey is null, no row of select carries key k, the table index
lost exactly the entry k, and every other map container (row containers and
sub-containers included) and every raw container is unchanged. -/
theorem remove_deletes_only_index_entry (doc : Doc) (T : Table) (k : String) :
    getKey (removeOp doc T k).doc T k = none
    ∧ (∀ (q : Filter) (r : JVal), r ∈ selectR (removeOp doc T k).doc T q →
        ∀ out, r = .jobj out → out.get "key" ≠ some (.str k))
    ∧ (removeOp doc T k).doc.getMap [T.name] = (doc.getMap [T.name]).del k
    ∧ (∀ p, p ≠ [T.name] → (removeOp doc T k).doc.getMap p = doc.getMap p)
    ∧ (removeOp doc T k).doc.raws = doc.raws := by
  have hidx : (removeOp doc T k).doc.getMap [T.name] = (doc.getMap [T.name]).del k := by
    rw [removeOp, mapDel]
    by_cases h : (doc.getMap [T.name]).has k
    · simp only [h, if_true]
      exact Doc.getMap_setMap_self _ _ _
    · simp only [h]
      rw [Bool.not_eq_true] at h
      simp only [h, Bool.false_eq_true, if_false]
      rw [JFields.del_of_get_none]
      rw [JFields.has] at h
      exact Option.not_isSome_iff_eq_none.1 (by rw [h]; simp)
  have hother : ∀ p, p ≠ [T.name] → (removeOp doc T k).doc.getMap p = doc.getMap p := by
    intro p hp
    rw [removeOp, mapDel]
    by_cases h : (doc.getMap [T.name]).has k
    · simp only [h, if_true]
      exact Doc.getMap_setMap_ne _ _ _ _ (fun hh => hp hh.symm)
    · rw [Bool.not_eq_true] at h
      simp [h]
  refine ⟨?_, ?_, hidx, hother, ?_⟩
  · rw [getKey, readData, hidx, JFields.has, JFields.get_del_self]
    simp
  · intro q r hr out hout hkey
    obtain ⟨k', hk', hread⟩ := selectR_mem _ T q r hr
    obtain ⟨out', hout', hkor⟩ := readObjectR_key _ [T.name, k'] T.shape k' r hread
    rw [hout] at hout'
    cases hout'
    have hne : k' ≠ k := by
      intro hkk
      subst hkk
      have := JFields.get_isSome_of_mem_names _ _ hk'
      rw [hidx, JFields.get_del_self] at this
      simp at this
    rcases hkor with hnone | hsome
    · rw [hnone] at hkey; exact absurd hkey (by simp)
    · rw [hsome] at hkey
      simp at hkey
      exact hne hkey
  · rw [removeOp, mapDel_raws]

/-- Claim C6 — upserting a row that fails schema validation surfaces the
validation failure synchronously and performs no document mutation: the
resulting document is the one from before the call and the transaction log
(whose events would drive watchers) is empty. -/
theorem upsert_invalid_is_rejected_without_mutation (doc : Doc) (T : Table)
    (row : JVal) (h : parseV (rowSch T) row = none) :
    (upsert doc T row).1.isSome
    ∧ (upsert doc T row).2.doc = doc
    ∧ (upsert doc T row).2.log = [] := by
  rw [upsert, h]
  exact ⟨by simp, rfl, rfl⟩

theorem fires_self (o : Obs) (c : Change) (h : c.path = o.path) :
    fires o [c] = true := by
  rw [fires]
  cases hd : o.deepO
  · simp [h]
  · simp [h, List.isPrefixOf_iff_prefix]

theorem fires_idx_row (cfg : SubCfg) (c : Change) (k : String)
    (h : [cfg.T.name, k] <+: c.path) : fires (idxObs cfg) [c] = false := by
  obtain ⟨tl, htl⟩ := h
  rw [fires, idxObs]
  simp [← htl]

/-- Claim C5 — for a visible, observed row, an update that makes the row stop
matching the subscription's filter is delivered as exactly one callback whose
removed group carries the last validated value, with empty added and changed
groups; the row leaves visibleData and its observer is disposed. -/
theorem watch_filter_exit_emits_removed (cfg : SubCfg) (k : String) (v : JVal)
    (st : WSt) (doc : Doc) (c : Change)
    (hobs : st.obs = [idxObs cfg, rowObs cfg k])
    (hun : lookupS st.unobs k =
      some (.disp [cfg.T.name, k] cfg.watchDeep (.rowContent k)))
    (hvis : st.visible.get k = some v)
    (hcp : c.path = [cfg.T.name, k])
    (hq : cfg.q (doc.getMap [cfg.T.name, k]) = false) :
    (deliverTxn cfg doc [c] st).1 = [⟨[], [v], []⟩]
    ∧ (deliverTxn cfg doc [c] st).2.visible.get k = none := by
  have hidx : fires (idxObs cfg) [c] = false := by
    rw [fires, idxObs]
    simp [hcp]
  have hrow : fires (rowObs cfg k) [c] = true := fires_self _ _ (by simp [hcp, rowObs])
  rw [deliverTxn, hobs]
  simp only [List.foldl_cons, List.foldl_nil, hidx, hrow, if_true,
    Bool.false_eq_true, if_false]
  simp only [runObs, rowObs]
  simp only [rowContentBody, hq, Bool.false_eq_true, if_false]
  rw [callUnobsW, hun]
  simp only [hvis]
  exact ⟨rfl, by simp [JFields.get_del_self]⟩

/-- Witness for C5: the repository's own scenario (watch at content level on
a boolean filter; an update flips the field to false) emits the last
validated row as removed and drops it from visibleData. -/
theorem watch_filter_exit_emits_removed_witness :
    (deliverTxn ⟨⟨"simple", .cons "key" .sstr (.cons "foo" .sbool .nil)⟩,
        eqF "foo" (.bool true), .content⟩
      ⟨[(["simple"], .cons "123" (.bool true) .nil),
        (["simple", "123"], .cons "foo" (.bool false) .nil)], []⟩
      [⟨["simple", "123"], .upd, "foo"⟩]
      ⟨.cons "123" (.jobj (.cons "key" (.str "123") (.cons "foo" (.bool true) .nil))) .nil,
       [⟨["simple"], false, .tableIdx⟩,
        ⟨["simple", "123"], false, .rowContent "123"⟩],
       [("123", .disp ["simple", "123"] false (.rowContent "123"))]⟩).1 =
      [⟨[], [.jobj (.cons "key" (.str "123") (.cons "foo" (.bool true) .nil))], []⟩] :=
  (watch_filter_exit_emits_removed
    ⟨⟨"simple", .cons "key" .sstr (.cons "foo" .sbool .nil)⟩,
      eqF "foo" (.bool true), .content⟩
    "123" (.jobj (.cons "key" (.str "123") (.cons "foo" (.bool true) .nil)))
    ⟨.cons "123" (.jobj (.cons "key" (.str "123") (.cons "foo" (.bool true) .nil))) .nil,
     [⟨["simple"], false, .tableIdx⟩,
      ⟨["simple", "123"], false, .rowContent "123"⟩],
     [("123", .disp ["simple", "123"] false (.rowContent "123"))]⟩
    ⟨[(["simple"], .cons "123" (.bool true) .nil),
      (["simple", "123"], .cons "foo" (.bool false) .nil)], []⟩
    ⟨["simple", "123"], .upd, "foo"⟩
    (by decide) (by decide) (by decide) (by decide) (by decide)).1

/-- Claim C4 — for an admitted visible row that still matches and still reads
valid: one transaction mutating the row container itself (an inline field)
yields zero changed rows at keys level and exactly one at content and deep
levels, while one transaction mutating a container strictly beneath the row
container (a nested record, union or raw sub-container) yields zero changed
rows at keys and content levels and exactly one at deep level. -/
theorem watch_level_graded_change_detection (cfg : SubCfg) (k : String)
    (st : WSt) (doc : Doc) (d : JVal)
    (hobs : st.obs = admittedObs cfg k)
    (hq : cfg.q (doc.getMap [cfg.T.name, k]) = true)
    (hrd : readDataPresent doc cfg.T k = some d) :
    (∀ c : Change, c.path = [cfg.T.name, k] →
        changedCount (deliverTxn cfg doc [c] st).1 =
          if cfg.level = .keys then 0 else 1)
    ∧ (∀ c : Change, [cfg.T.name, k] <+: c.path → c.path ≠ [cfg.T.name, k] →
        changedCount (deliverTxn cfg doc [c] st).1 =
          if cfg.level = .deep then 1 else 0) := by
  constructor
  · intro c hcp
    have hidx : fires (idxObs cfg) [c] = false := by
      rw [fires, idxObs]
      simp [hcp]
    have hrow : fires (rowObs cfg k) [c] = true :=
      fires_self _ _ (by simp [hcp, rowObs])
    rw [deliverTxn, hobs, admittedObs]
    match hl : cfg.level with
    | .keys =>
        simp only [if_true]
        simp [hidx, changedCount]
    | .content =>
        simp only [reduceCtorEq, if_false]
        simp only [List.foldl_cons, List.foldl_nil, hidx, hrow, if_true,
          Bool.false_eq_true, if_false]
        simp only [runObs, rowObs]
        simp only [rowContentBody, hq, if_true, hrd]
        simp [changedCount]
    | .deep =>
        simp only [reduceCtorEq, if_false]
        simp only [List.foldl_cons, List.foldl_nil, hidx, hrow, if_true,
          Bool.false_eq_true, if_false]
        simp only [runObs, rowObs]
        simp only [rowContentBody, hq, if_true, hrd]
        simp [changedCount]
  · intro c hpre hne
    have hidx : fires (idxObs cfg) [c] = false := fires_idx_row cfg c k hpre
    rw [deliverTxn, hobs, admittedObs]
    match hl : cfg.level with
    | .keys =>
        simp only [if_true]
        simp [hidx, changedCount]
    | .content =>
        have hrow : fires (rowObs cfg k) [c] = false := by
          rw [fires, rowObs]
          have hwd : cfg.watchDeep = false := by simp [SubCfg.watchDeep, hl]
          simp only [hwd, Bool.false_eq_true, if_false]
          simp
          intro hh
          exact hne (by simp [hh])
        simp only [reduceCtorEq, if_false]
        simp [hidx, hrow, changedCount]
    | .deep =>
        have hrow : fires (rowObs cfg k) [c] = true := by
          rw [fires, rowObs]
          have hwd : cfg.watchDeep = true := by simp [SubCfg.watchDeep, hl]
          simp only [hwd, if_true]
          simp [List.isPrefixOf_iff_prefix]
          exact hpre
        simp only [reduceCtorEq, if_false]
        simp only [List.foldl_cons, List.foldl_nil, hidx, hrow, if_true,
          Bool.false_eq_true, if_false]
        simp only [runObs, rowObs]
        simp only [rowContentBody, hq, if_true, hrd]
        simp [changedCount]

/-- Test table of the watcher scenarios: an inline field, a nested record
sub-container and a raw shared container (watch.test.ts WatchTestTable,
specification scenario S5). -/
def wTable : Table :=
  ⟨"w", .cons "key" .sstr (.cons "simple" .sstr
    (.cons "nested" (.obj false false (.cons "value" .sstr .nil))
      (.cons "rawMap" (.raw .ymap) .nil)))⟩

def wRow : JVal :=
  .jobj (.cons "key" (.str "1") (.cons "simple" (.str "hello")
    (.cons "nested" (.jobj (.cons "value" (.str "world") .nil))
      (.cons "rawMap" (.ydet .ymap) .nil))))

/-- The document with the test row upserted. -/
def wDoc : Doc := (upsert ⟨[], []⟩ wTable wRow).2.doc

/-- The document after updating the nested sub-container field. -/
def wDocNested : Doc :=
  (updateOp wDoc wTable (.jobj (.cons "key" (.str "1")
    (.cons "nested" (.jobj (.cons "value" (.str "upd") .nil)) .nil)))).1.doc

/-- The test row as a validated read returns it after the nested update:
the raw container field is the attached handle at its path. -/
def wRowAfter : JVal :=
  .jobj (.cons "key" (.str "1") (.cons "simple" (.str "hello")
    (.cons "nested" (.jobj (.cons "value" (.str "upd") .nil))
      (.cons "rawMap" (.yref .ymap ["w", "1", "rawMap"]) .nil))))

/-- Witness for C4, replaying scenario S5 of the specification: a mutation
inside the nested sub-container yields one changed row at deep level and
none at content level. -/
theorem watch_level_graded_change_detection_witness :
    changedCount (deliverTxn ⟨wTable, anyF, .deep⟩ wDocNested
      [⟨["w", "1", "nested"], .upd, "value"⟩]
      (watchInit ⟨wTable, anyF, .deep⟩ wDoc).2).1 = 1
    ∧ changedCount (deliverTxn ⟨wTable, anyF, .content⟩ wDocNested
      [⟨["w", "1", "nested"], .upd, "value"⟩]
      (watchInit ⟨wTable, anyF, .content⟩ wDoc).2).1 = 0 := by
  constructor
  · exact ((watch_level_graded_change_detection ⟨wTable, anyF, .deep⟩ "1"
      (watchInit ⟨wTable, anyF, .deep⟩ wDoc).2 wDocNested wRowAfter
      (by decide) (by decide) (by decide)).2
      ⟨["w", "1", "nested"], .upd, "value"⟩ ⟨["nested"], by decide⟩
      (by decide)).trans (by decide)
  · exact ((watch_level_graded_change_detection ⟨wTable, anyF, .content⟩ "1"
      (watchInit ⟨wTable, anyF, .content⟩ wDoc).2 wDocNested wRowAfter
      (by decide) (by decide) (by decide)).2
      ⟨["w", "1", "nested"], .upd, "value"⟩ ⟨["nested"], by decide⟩
      (by decide)).trans (by decide)

/-- The rows addRows admits are exactly the rows the select loop over the
same keys returns, in the same order: the filter is evaluated on the shallow
row container and matching keys contribute their validated reads. -/
theorem addRowsW_added (cfg : SubCfg) (doc : Doc) : ∀ (ks : List String) (st : WSt),
    (addRowsW cfg doc ks st).1 = ks.filterMap (fun k =>
      if cfg.q (doc.getMap [cfg.T.name, k]) then readDataPresent doc cfg.T k else none)
  | [], st => by simp [addRowsW]
  | k :: ks, st => by
      rw [addRowsW]
      by_cases hq : cfg.q (doc.getMap [cfg.T.name, k])
      · simp only [hq, if_true]
        cases hrd : readDataPresent doc cfg.T k with
        | some d =>
            simp only [List.filterMap_cons, hq, if_true, hrd]
            rw [addRowsW_added cfg doc ks _]
        | none =>
            simp only [List.filterMap_cons, hq, if_true, hrd]
            rw [addRowsW_added cfg doc ks _]
      · simp only [hq, Bool.false_eq_true, if_false]
        simp only [List.filterMap_cons, hq, Bool.false_eq_true, if_false]
        rw [addRowsW_added cfg doc ks _]

/-- Claim C2 — on subscribe, watch synchronously computes the initial visible
set as select would return it and, exactly when that set is non-empty, makes
a single seeding callback carrying it as added with empty removed and changed
groups; with an empty set no seeding call is made.  These are the only
emissions produced at subscribe time. -/
theorem watch_seeding_call_equals_select (cfg : SubCfg) (doc : Doc) :
    (watchInit cfg doc).1 =
      (if (selectR doc cfg.T cfg.q).isEmpty then []
       else [⟨selectR doc cfg.T cfg.q, [], []⟩]) := by
  rw [watchInit, selectR]
  rw [addRowsW_added cfg doc]

/-- Claim C3 (code-bug evidence) — a key already present in the table index
whose row is still partial gets a deep wait-until-valid observer; on the
first mutation after which the row validates (and matches the filter), the
engine silently records it as visible and attaches a content observer, but it
neither delivers the row to the subscriber's callback in the added group nor
unobserves the deep waiter: the emission list of that transaction is empty
and the waiter observer is still attached afterwards.  The sequence below
replays the scenario concretely: an update writes half a row, the index entry
arrives (pending, no emission), then the update completing the row triggers
the waiter. -/
theorem waiter_admission_is_silent_and_leaks_observer :
    (let T : Table := ⟨"t", .cons "key" .sstr (.cons "a" .sstr (.cons "b" .sstr .nil))⟩
     let cfg : SubCfg := ⟨T, anyF, .content⟩
     let d0 : Doc := ⟨[], []⟩
     let s0 := watchInit cfg d0
     let s1 := stepTxn cfg s0.2 d0 (fun d =>
       (updateOp d T (.jobj (.cons "key" (.str "1") (.cons "a" (.str "x") .nil)))).1)
     let s2 := stepTxn cfg s1.2.2 s1.1 (fun d => indexSet d T "1")
     let s3 := stepTxn cfg s2.2.2 s2.1 (fun d =>
       (updateOp d T (.jobj (.cons "key" (.str "1") (.cons "b" (.str "y") .nil)))).1)
     s0.1 = [] ∧ s1.2.1 = []
     ∧ s2.2.1 = []
     ∧ s2.2.2.obs = [idxObs cfg, waiterObs cfg "1"]
     ∧ lookupS s2.2.2.unobs "1" = some (.waiterFn "1")
     ∧ readDataPresent s3.1 cfg.T "1" =
         some (.jobj (.cons "key" (.str "1") (.cons "a" (.str "x") (.cons "b" (.str "y") .nil))))
     ∧ cfg.q (s3.1.getMap ["t", "1"]) = true
     ∧ s3.2.1 = []
     ∧ s3.2.2.visible.get "1" =
         some (.jobj (.cons "key" (.str "1") (.cons "a" (.str "x") (.cons "b" (.str "y") .nil))))
     ∧ waiterObs cfg "1" ∈ s3.2.2.obs) := by
  decide

/-- Claim C7 — a key present in the table index whose assembled row fails
validation is invisible everywhere, with no error surfaced: getKey returns
null, select omits any row carrying that key, addRows (the sole source of
added rows in watcher callbacks) never admits a row carrying it, and the
seeding call omits it.  All read paths of the embedding are total functions,
so no document state makes them fail. -/
theorem invalid_present_row_is_hidden (doc : Doc) (T : Table) (k : String)
    (hp : (doc.getMap [T.name]).has k = true)
    (hinv : readObjectR doc [T.name, k] T.shape (some k) = none) :
    getKey doc T k = none
    ∧ (∀ (q : Filter) (r : JVal), r ∈ selectR doc T q →
        ∀ out : JFields, r = .jobj out → out.get "key" ≠ some (.str k))
    ∧ (∀ (cfg : SubCfg), cfg.T = T → ∀ (ks : List String) (st : WSt) (r : JVal),
        r ∈ (addRowsW cfg doc ks st).1 →
        ∀ out : JFields, r = .jobj out → out.get "key" ≠ some (.str k))
    ∧ (∀ (cfg : SubCfg), cfg.T = T → ∀ e ∈ (watchInit cfg doc).1,
        e.removed = [] ∧ e.changed = [] ∧
        ∀ r ∈ e.added, ∀ out : JFields, r = .jobj out →
          out.get "key" ≠ some (.str k)) := by
  have hread : ∀ k' r, readDataPresent doc T k' = some r →
      ∀ out : JFields, r = .jobj out → out.get "key" ≠ some (.str k) := by
    intro k' r hr out hout hkey
    by_cases hkk : k' = k
    · subst hkk
      rw [readDataPresent, hinv] at hr
      exact absurd hr (by simp)
    · obtain ⟨out', hout', hkor⟩ := readObjectR_key doc [T.name, k'] T.shape k' r hr
      rw [hout] at hout'
      cases hout'
      rcases hkor with hnone | hsome
      · rw [hnone] at hkey
        exact absurd hkey (by simp)
      · rw [hsome] at hkey
        simp at hkey
        exact hkk hkey
  have hsel : ∀ (q : Filter) (r : JVal), r ∈ selectR doc T q →
      ∀ out : JFields, r = .jobj out → out.get "key" ≠ some (.str k) := by
    intro q r hr out hout
    obtain ⟨k', _, hrd⟩ := selectR_mem doc T q r hr
    exact hread k' r hrd out hout
  have hadd : ∀ (cfg : SubCfg), cfg.T = T → ∀ (ks : List String) (st : WSt) (r : JVal),
      r ∈ (addRowsW cfg doc ks st).1 →
      ∀ out : JFields, r = .jobj out → out.get "key" ≠ some (.str k) := by
    intro cfg hcfg ks st r hr out hout
    rw [addRowsW_added cfg doc ks st, List.mem_filterMap] at hr
    obtain ⟨k', _, hrk⟩ := hr
    by_cases hq : cfg.q (doc.getMap [cfg.T.name, k'])
    · rw [if_pos hq] at hrk
      rw [hcfg] at hrk
      exact hread k' r hrk out hout
    · rw [if_neg hq] at hrk
      exact absurd hrk (by simp)
  refine ⟨?_, hsel, hadd, ?_⟩
  · rw [getKey, readData, hp, if_pos rfl, hinv]
  · intro cfg hcfg e he
    rw [watch_seeding_call_equals_select] at he
    by_cases hemp : (selectR doc cfg.T cfg.q).isEmpty
    · rw [if_pos hemp] at he
      exact absurd he (by simp)
    · rw [if_neg hemp] at he
      simp at he
      subst he
      refine ⟨rfl, rfl, ?_⟩
      intro r hr out hout
      rw [hcfg] at hr
      exact hsel cfg.q r hr out hout

/-- Witness for C7: a row with only half its fields written but an index
entry present reads as null through getKey. -/
theorem invalid_present_row_is_hidden_witness :
    getKey
      (indexSet
        ((updateOp ⟨[], []⟩ ⟨"t", .cons "key" .sstr (.cons "a" .sstr (.cons "b" .sstr .nil))⟩
          (.jobj (.cons "key" (.str "1") (.cons "a" (.str "x") .nil)))).1.doc)
        ⟨"t", .cons "key" .sstr (.cons "a" .sstr (.cons "b" .sstr .nil))⟩ "1").doc
      ⟨"t", .cons "key" .sstr (.cons "a" .sstr (.cons "b" .sstr .nil))⟩ "1" = none :=
  (invalid_present_row_is_hidden
    (indexSet
      ((updateOp ⟨[], []⟩ ⟨"t", .cons "key" .sstr (.cons "a" .sstr (.cons "b" .sstr .nil))⟩
        (.jobj (.cons "key" (.str "1") (.cons "a" (.str "x") .nil)))).1.doc)
      ⟨"t", .cons "key" .sstr (.cons "a" .sstr (.cons "b" .sstr .nil))⟩ "1").doc
    ⟨"t", .cons "key" .sstr (.cons "a" .sstr (.cons "b" .sstr .nil))⟩ "1"
    (by decide) (by decide)).1

/-- writeObject never creates data properties: a property absent from the
data object stays absent through the write (the loop only touches properties
it found present). -/
theorem writeFields_out_get_none : ∀ (sh : Shape) (w : TxDoc) (p : Path)
    (data : JFields) (n : String), data.get n = none →
    (writeFields w p data sh).2.get n = none
  | .nil, w, p, data, n, h => h
  | .cons f t rest, w, p, data, n, h => by
      rw [writeFields]
      match hg : data.get f with
      | none => exact writeFields_out_get_none rest w p data n h
      | some v =>
          have hfn : f ≠ n := by
            intro hh
            rw [hh, h] at hg
            cases hg
          match t with
          | .sstr => exact writeFields_out_get_none rest (mapSet w p f v) p data n h
          | .sbool => exact writeFields_out_get_none rest (mapSet w p f v) p data n h
          | .sint => exact writeFields_out_get_none rest (mapSet w p f v) p data n h
          | .lit _ => exact writeFields_out_get_none rest (mapSet w p f v) p data n h
          | .raw _ => exact writeFields_out_get_none rest w p data n h
          | .obj sm true sub =>
              by_cases hsm : sm
              · simp only [hsm, if_true]
                exact writeFields_out_get_none rest w p data n h
              · simp only [hsm, Bool.false_eq_true, if_false]
                exact writeFields_out_get_none rest (mapSet w p f v) p data n h
          | .obj sm false sub =>
              match v with
              | .jobj gs =>
                  exact writeFields_out_get_none rest _ p _ n
                    (by rw [JFields.get_set_ne _ f n _ hfn]; exact h)
              | .str _ => exact writeFields_out_get_none rest w p data n h
              | .bool _ => exact writeFields_out_get_none rest w p data n h
              | .int _ => exact writeFields_out_get_none rest w p data n h
              | .yref _ _ => exact writeFields_out_get_none rest w p data n h
              | .ydet _ => exact writeFields_out_get_none rest w p data n h
          | .union sm true disc vs =>
              by_cases hsm : sm
              · simp only [hsm, if_true]
                exact writeFields_out_get_none rest w p data n h
              · simp only [hsm, Bool.false_eq_true, if_false]
                exact writeFields_out_get_none rest (mapSet w p f v) p data n h
          | .union sm false disc vs =>
              match v with
              | .jobj gs =>
                  exact writeFields_out_get_none rest _ p _ n
                    (by rw [JFields.get_set_ne _ f n _ hfn]; exact h)
              | .str _ => exact writeFields_out_get_none rest w p data n h
              | .bool _ => exact writeFields_out_get_none rest w p data n h
              | .int _ => exact writeFields_out_get_none rest w p data n h
              | .yref _ _ => exact writeFields_out_get_none rest w p data n h
              | .ydet _ => exact writeFields_out_get_none rest w p data n h

/-- writeObject leaves data properties outside the schema shape as they are. -/
theorem writeFields_out_get_notmem : ∀ (sh : Shape) (w : TxDoc) (p : Path)
    (data : JFields) (n : String), n ∉ sh.names →
    (writeFields w p data sh).2.get n = data.get n
  | .nil, w, p, data, n, h => rfl
  | .cons f t rest, w, p, data, n, h => by
      rw [Shape.names] at h
      simp at h
      obtain ⟨hfn, hrest⟩ := h
      have hfn' : f ≠ n := fun hh => hfn hh.symm
      rw [writeFields]
      match hg : data.get f with
      | none => exact writeFields_out_get_notmem rest w p data n hrest
      | some v =>
          match t with
          | .sstr => exact writeFields_out_get_notmem rest (mapSet w p f v) p data n hrest
          | .sbool => exact writeFields_out_get_notmem rest (mapSet w p f v) p data n hrest
          | .sint => exact writeFields_out_get_notmem rest (mapSet w p f v) p data n hrest
          | .lit _ => exact writeFields_out_get_notmem rest (mapSet w p f v) p data n hrest
          | .raw _ => exact writeFields_out_get_notmem rest w p data n hrest
          | .obj sm true sub =>
              by_cases hsm : sm
              · simp only [hsm, if_true]
                exact writeFields_out_get_notmem rest w p data n hrest
              · simp only [hsm, Bool.false_eq_true, if_false]
                exact writeFields_out_get_notmem rest (mapSet w p f v) p data n hrest
          | .obj sm false sub =>
              match v with
              | .jobj gs =>
                  rw [writeFields_out_get_notmem rest _ p _ n hrest]
                  exact JFields.get_set_ne _ f n _ hfn'
              | .str _ => exact writeFields_out_get_notmem rest w p data n hrest
              | .bool _ => exact writeFields_out_get_notmem rest w p data n hrest
              | .int _ => exact writeFields_out_get_notmem rest w p data n hrest
              | .yref _ _ => exact writeFields_out_get_notmem rest w p data n hrest
              | .ydet _ => exact writeFields_out_get_notmem rest w p data n hrest
          | .union sm true disc vs =>
              by_cases hsm : sm
              · simp only [hsm, if_true]
                exact writeFields_out_get_notmem rest w p data n hrest
              · simp only [hsm, Bool.false_eq_true, if_false]
                exact writeFields_out_get_notmem rest (mapSet w p f v) p data n hrest
          | .union sm false disc vs =>
              match v with
              | .jobj gs =>
                  rw [writeFields_out_get_notmem rest _ p _ n hrest]
                  exact JFields.get_set_ne _ f n _ hfn'
              | .str _ => exact writeFields_out_get_notmem rest w p data n hrest
              | .bool _ => exact writeFields_out_get_notmem rest w p data n hrest
              | .int _ => exact writeFields_out_get_notmem rest w p data n hrest
              | .yref _ _ => exact writeFields_out_get_notmem rest w p data n hrest
              | .ydet _ => exact writeFields_out_get_notmem rest w p data n hrest

/-- Converts the Boolean duplicate-freedom of a cons of names. -/
theorem nodupB_cons (n : String) (ns : List String)
    (h : nodupB (n :: ns) = true) : n ∉ ns ∧ nodupB ns = true := by
  rw [nodupB] at h
  simp at h
  exact h

/-- A record value present in the partial at a non-shallow record field of
the schema is recursed into, and the recursion deletes its key property: the
caller's nested object has lost its key after the call. -/
theorem writeFields_out_scrubbed : ∀ (sh : Shape) (w : TxDoc) (p : Path)
    (data : JFields) (f : String) (sm : Bool) (sub : Shape) (gs : JFields),
    nodupB sh.names = true → sh.find f = some (.obj sm false sub) →
    data.get f = some (.jobj gs) →
    ∃ gs', (writeFields w p data sh).2.get f = some (.jobj gs')
      ∧ gs'.get "key" = none
  | .nil, w, p, data, f, sm, sub, gs, hnd, hf, hg => by simp [Shape.find] at hf
  | .cons n t rest, w, p, data, f, sm, sub, gs, hnd, hf, hg => by
      rw [Shape.names] at hnd
      obtain ⟨hnmem, hndrest⟩ := nodupB_cons n rest.names hnd
      by_cases hnf : n = f
      · subst hnf
        simp [Shape.find] at hf
        subst hf
        rw [writeFields, hg]
        rw [writeFields_out_get_notmem rest _ p _ n hnmem]
        rw [JFields.get_set_self]
        exact ⟨_, rfl, writeFields_out_get_none sub _ _ _ "key"
          (JFields.get_del_self gs "key")⟩
      · simp [Shape.find, hnf] at hf
        rw [writeFields]
        match hgn : data.get n with
        | none => exact writeFields_out_scrubbed rest w p data f sm sub gs hndrest hf hg
        | some v =>
            have hset : ∀ x, (data.set n x).get f = some (.jobj gs) := by
              intro x
              rw [JFields.get_set_ne _ n f _ hnf]
              exact hg
            match t with
            | .sstr => exact writeFields_out_scrubbed rest _ p data f sm sub gs hndrest hf hg
            | .sbool => exact writeFields_out_scrubbed rest _ p data f sm sub gs hndrest hf hg
            | .sint => exact writeFields_out_scrubbed rest _ p data f sm sub gs hndrest hf hg
            | .lit _ => exact writeFields_out_scrubbed rest _ p data f sm sub gs hndrest hf hg
            | .raw _ => exact writeFields_out_scrubbed rest w p data f sm sub gs hndrest hf hg
            | .obj sm' true sub' =>
                by_cases hsm : sm'
                · simp only [hsm, if_true]
                  exact writeFields_out_scrubbed rest w p data f sm sub gs hndrest hf hg
                · simp only [hsm, Bool.false_eq_true, if_false]
                  exact writeFields_out_scrubbed rest _ p data f sm sub gs hndrest hf hg
            | .obj sm' false sub' =>
                match v with
                | .jobj gs2 =>
                    exact writeFields_out_scrubbed rest _ p _ f sm sub gs hndrest hf (hset _)
                | .str _ => exact writeFields_out_scrubbed rest w p data f sm sub gs hndrest hf hg
                | .bool _ => exact writeFields_out_scrubbed rest w p data f sm sub gs hndrest hf hg
                | .int _ => exact writeFields_out_scrubbed rest w p data f sm sub gs hndrest hf hg
                | .yref _ _ => exact writeFields_out_scrubbed rest w p data f sm sub gs hndrest hf hg
                | .ydet _ => exact writeFields_out_scrubbed rest w p data f sm sub gs hndrest hf hg
            | .union sm' true disc vs =>
                by_cases hsm : sm'
                · simp only [hsm, if_true]
                  exact writeFields_out_scrubbed rest w p data f sm sub gs hndrest hf hg
                · simp only [hsm, Bool.false_eq_true, if_false]
                  exact writeFields_out_scrubbed rest _ p data f sm sub gs hndrest hf hg
            | .union sm' false disc vs =>
                match v with
                | .jobj gs2 =>
                    exact writeFields_out_scrubbed rest _ p _ f sm sub gs hndrest hf (hset _)
                | .str _ => exact writeFields_out_scrubbed rest w p data f sm sub gs hndrest hf hg
                | .bool _ => exact writeFields_out_scrubbed rest w p data f sm sub gs hndrest hf hg
                | .int _ => exact writeFields_out_scrubbed rest w p data f sm sub gs hndrest hf hg
                | .yref _ _ => exact writeFields_out_scrubbed rest w p data f sm sub gs hndrest hf hg
                | .ydet _ => exact writeFields_out_scrubbed rest w p data f sm sub gs hndrest hf hg

/-- Counterexample to claim C10 as stated: update does delete the key
property from the caller's partial object itself, but a nested record value
stored inline (a shallow-marked record field) is written as-is and keeps its
key property, so the key is not deleted from every nested record value that
contained one. -/
theorem update_does_not_scrub_shallow_nested_keys :
    ((updateOp ⟨[], []⟩
        ⟨"s", .cons "key" .sstr (.cons "s" (.obj false true (.cons "a" .sstr .nil)) .nil)⟩
        (.jobj (.cons "key" (.str "k")
          (.cons "s" (.jobj (.cons "key" (.str "x") (.cons "a" (.str "1") .nil))) .nil)))).2 =
      .jobj (.cons "s" (.jobj (.cons "key" (.str "x") (.cons "a" (.str "1") .nil))) .nil)) := by
  decide

/-- Claim C10 as amended — update(doc, T, partial) mutates its argument: the
key property is deleted from the caller's partial object itself, and from
every nested record value the write recurses into (a value present at a
non-shallow record field of the schema); nested records stored inline, such
as shallow-marked fields, are written as-is and keep their key property. -/
theorem update_mutates_partial_scrubbing_recursed_keys (doc : Doc) (T : Table)
    (fs : JFields) (f : String) (sm : Bool) (sub : Shape) (gs : JFields)
    (hnd : nodupB T.shape.names = true)
    (hf : T.shape.find f = some (.obj sm false sub))
    (hfk : f ≠ "key")
    (hg : fs.get f = some (.jobj gs)) :
    ∃ out : JFields, (updateOp doc T (.jobj fs)).2 = .jobj out
      ∧ out.get "key" = none
      ∧ ∃ gs', out.get f = some (.jobj gs') ∧ gs'.get "key" = none := by
  rw [updateOp, writeData, writeObjectW]
  refine ⟨_, rfl, ?_, ?_⟩
  · exact writeFields_out_get_none T.shape _ _ _ "key" (JFields.get_del_self fs "key")
  · exact writeFields_out_scrubbed T.shape _ _ _ f sm sub gs hnd hf
      (by rw [JFields.get_del_ne _ "key" f (fun hh => hfk hh.symm)]; exact hg)

/-- Witness for the amended C10: a partial with a nested record that carries
a key property loses the key both at the top level and inside the recursed
nested record. -/
theorem update_mutates_partial_scrubbing_recursed_keys_witness :
    ∃ out : JFields,
      (updateOp ⟨[], []⟩
        ⟨"n", .cons "key" .sstr (.cons "inner" (.obj false false (.cons "a" .sstr .nil)) .nil)⟩
        (.jobj (.cons "key" (.str "1")
          (.cons "inner" (.jobj (.cons "key" (.str "zz") (.cons "a" (.str "q") .nil))) .nil)))).2 =
        .jobj out
      ∧ out.get "key" = none
      ∧ ∃ gs', out.get "inner" = some (.jobj gs') ∧ gs'.get "key" = none :=
  update_mutates_partial_scrubbing_recursed_keys ⟨[], []⟩
    ⟨"n", .cons "key" .sstr (.cons "inner" (.obj false false (.cons "a" .sstr .nil)) .nil)⟩
    (.cons "key" (.str "1")
      (.cons "inner" (.jobj (.cons "key" (.str "zz") (.cons "a" (.str "q") .nil))) .nil))
    "inner" false (.cons "a" .sstr .nil)
    (.cons "key" (.str "zz") (.cons "a" (.str "q") .nil))
    (by decide) (by decide) (by decide) (by decide)

/-- Witness for C6: a row missing a declared field is rejected and the
document is untouched. -/
theorem upsert_invalid_is_rejected_without_mutation_witness :
    (parseV (rowSch ⟨"simple", .cons "key" .sstr (.cons "foo" .sbool .nil)⟩)
        (.jobj (.cons "key" (.str "x") .nil)) = none)
    ∧ ((upsert ⟨[], []⟩ ⟨"simple", .cons "key" .sstr (.cons "foo" .sbool .nil)⟩
        (.jobj (.cons "key" (.str "x") .nil))).1.isSome
       ∧ (upsert ⟨[], []⟩ ⟨"simple", .cons "key" .sstr (.cons "foo" .sbool .nil)⟩
          (.jobj (.cons "key" (.str "x") .nil))).2.doc = ⟨[], []⟩
       ∧ (upsert ⟨[], []⟩ ⟨"simple", .cons "key" .sstr (.cons "foo" .sbool .nil)⟩
          (.jobj (.cons "key" (.str "x") .nil))).2.log = []) :=
  ⟨by decide,
   upsert_invalid_is_rejected_without_mutation ⟨[], []⟩
     ⟨"simple", .cons "key" .sstr (.cons "foo" .sbool .nil)⟩
     (.jobj (.cons "key" (.str "x") .nil)) (by decide)⟩

/-- The expected read of a shape yields, at each declared field, the expected
read of the stored value (first occurrence governs, as for property lookup). -/
theorem eReadF_get : ∀ (sh : Shape) (p : Path) (fs : JFields) (f : String) (t : Sch),
    sh.find f = some t →
    (eReadF p sh fs).get f = some (eReadV (p ++ [f]) t ((fs.get f).getD (.bool false)))
  | .nil, p, fs, f, t, h => by simp [Shape.find] at h
  | .cons n t0 r, p, fs, f, t, h => by
      rw [eReadF]
      by_cases hn : n = f
      · subst hn
        simp [Shape.find] at h
        subst h
        simp [JFields.get]
      · simp [Shape.find, hn] at h
        simp [JFields.get, hn]
        exact eReadF_get r p fs f t h

/-- An assembled object whose fields parse to the expected reads of the
stored values parses, shape-wide, to exactly the expected read of the shape. -/
theorem parseShape_eread : ∀ (sh : Shape) (p : Path) (fs asm : JFields),
    nodupB sh.names = true →
    (∀ f t, sh.find f = some t →
      asm.get f = some (eReadV (p ++ [f]) t ((fs.get f).getD (.bool false)))
      ∧ parseV t (eReadV (p ++ [f]) t ((fs.get f).getD (.bool false)))
          = some (eReadV (p ++ [f]) t ((fs.get f).getD (.bool false)))) →
    parseShape sh asm = some (eReadF p sh fs)
  | .nil, p, fs, asm, hnd, H => by simp [parseShape, eReadF]
  | .cons n t r, p, fs, asm, hnd, H => by
      rw [Shape.names] at hnd
      obtain ⟨hnmem, hndrest⟩ := nodupB_cons n r.names hnd
      obtain ⟨hget, hparse⟩ := H n t (by simp [Shape.find])
      rw [parseShape]
      simp only [hget, hparse]
      rw [parseShape_eread r p fs asm hndrest ?_]
      · simp [eReadF]
      · intro f t' hf
        have hfn : n ≠ f := by
          intro hh
          apply hnmem
          rw [hh, ← Shape.find_isSome_iff_mem_names]
          simp [hf]
        exact H f t' (by simp [Shape.find, hfn, hf])

/-- Parse fixpoints remain fixpoints after the expected-read substitution of
raw container handles: the expected read of a valid stored value is itself
valid (this is what makes a read after a write validate). -/
theorem eread_fix : ∀ (t : Sch) (p : Path) (w : JVal),
    goodSch t = true → parseV t w = some w →
    parseV t (eReadV p t w) = some (eReadV p t w)
  | .sstr, p, w, hg, hfix => hfix
  | .sbool, p, w, hg, hfix => hfix
  | .sint, p, w, hg, hfix => hfix
  | .lit v, p, w, hg, hfix => hfix
  | .raw k, p, w, hg, hfix => by
      show parseV (.raw k) (.yref k p) = some (.yref k p)
      simp [parseV]
  | .obj sm true sub, p, w, hg, hfix => by
      rw [goodSch] at hg
      simp at hg
      subst hg
      exact hfix
  | .obj sm false sub, p, w, hg, hfix => by
      obtain ⟨gs, hv, hps⟩ := parseV_obj_fix_inv sm sub w hfix
      subst hv
      rw [goodSch] at hg
      simp at hg
      obtain ⟨⟨hnd, hnk⟩, hgs⟩ := hg
      have hER : eReadV p (.obj sm false sub) (.jobj gs) = .jobj (eReadF p sub gs) := by
        rw [eReadV]
      rw [hER, parseV]
      rw [parseShape_eread sub p gs (eReadF p sub gs) hnd ?_]
      · simp
      · intro f t' hf
        obtain ⟨v, hget, hfx⟩ := parseShape_fix_pointwise sub gs hps f t' hf
        refine ⟨?_, ?_⟩
        · rw [eReadF_get sub p gs f t' hf]
        · rw [hget]
          simp only [Option.getD_some]
          exact eread_fix t' (p ++ [f]) v (goodShape_find sub f t' hgs hf) hfx
  | .union sm true disc vs, p, w, hg, hfix => by
      rw [goodSch] at hg
      simp at hg
      subst hg
      exact hfix
  | .union sm false disc vs, p, w, hg, hfix => by
      obtain ⟨gs, dv, vsh, hv, hdisc, hfd, hps⟩ :=
        parseV_union_fix_inv sm disc vs w hfix
      subst hv
      rw [goodSch] at hg
      simp at hg
      obtain ⟨hnd, hnk, hgs, hfdisc⟩ := goodVars_findVariant vs disc dv vsh hg hfd
      have hER : eReadV p (.union sm false disc vs) (.jobj gs) = .jobj (eReadF p vsh gs) := by
        rw [eReadV, hdisc]
        simp only [Option.getD_some]
        simp only [eReadVariants_eq_findVariant, hfd]
      have hdiscE : (eReadF p vsh gs).get disc = some dv := by
        rw [eReadF_get vsh p gs disc (.lit dv) hfdisc]
        rw [hdisc]
        simp [eReadV]
      rw [hER, parseV, parseVariants_eq_findVariant]
      simp only [hdiscE, hfd]
      rw [parseShape_eread vsh p gs (eReadF p vsh gs) hnd ?_]
      · simp
      · intro f t' hf
        obtain ⟨v, hget, hfx⟩ := parseShape_fix_pointwise vsh gs hps f t' hf
        refine ⟨?_, ?_⟩
        · rw [eReadF_get vsh p gs f t' hf]
        · rw [hget]
          simp only [Option.getD_some]
          exact eread_fix t' (p ++ [f]) v (goodShape_find vsh f t' hgs hf) hfx
termination_by t _ _ _ _ => sizeOf t
decreasing_by
  all_goals simp_wf
  · have := Shape.find_sizeOf sub f t' (by assumption)
    omega
  · have h1 := Shape.find_sizeOf vsh f t' (by assumption)
    have h2 := findVariant_sizeOf vs disc dv vsh (by assumption)
    omega

theorem prefix_cons_ne_self (p : Path) (f : String) (q : Path)
    (h : (p ++ [f]) <+: q) : q ≠ p := by
  intro hq
  subst hq
  have := h.length_le
  simp at this

theorem prefix_cons_inj (p : Path) (f g : String) (q : Path)
    (h1 : (p ++ [f]) <+: q) (h2 : (p ++ [g]) <+: q) : f = g := by
  obtain ⟨t1, ht1⟩ := h1
  obtain ⟨t2, ht2⟩ := h2
  rw [← ht2] at ht1
  rw [List.append_assoc, List.append_assoc] at ht1
  have := List.append_cancel_left ht1
  simp at this
  exact this.1

mutual
/-- writeObject's field loop only mutates the map container at its own path
(inline assignments) and containers at or beneath the sub-container paths of
its shape's fields. -/
theorem writeFields_frame : ∀ (sh : Shape) (w : TxDoc) (p : Path)
    (data : JFields) (q : Path),
    (writeFields w p data sh).1.doc.getMap q ≠ w.doc.getMap q →
    q = p ∨ ∃ g, g ∈ sh.names ∧ (p ++ [g]) <+: q
  | .nil, w, p, data, q, h => absurd rfl h
  | .cons f t rest, w, p, data, q, h => by
      have weaken : (q = p ∨ ∃ g, g ∈ rest.names ∧ (p ++ [g]) <+: q) →
          q = p ∨ ∃ g, g ∈ (Shape.cons f t rest).names ∧ (p ++ [g]) <+: q := by
        rintro (hq | ⟨g, hg1, hg2⟩)
        · exact Or.inl hq
        · exact Or.inr ⟨g, by simp [Shape.names, hg1], hg2⟩
      have inline_case : ∀ (v : JVal),
          (writeFields (mapSet w p f v) p data rest).1.doc.getMap q ≠ w.doc.getMap q →
          q = p ∨ ∃ g, g ∈ (Shape.cons f t rest).names ∧ (p ++ [g]) <+: q := by
        intro v hh
        by_cases h1 : (mapSet w p f v).doc.getMap q = w.doc.getMap q
        · rw [← h1] at hh
          exact weaken (writeFields_frame rest (mapSet w p f v) p data q hh)
        · left
          by_cases hqp : q = p
          · exact hqp
          · exact absurd (mapSet_getMap_ne w p q f v (fun hk => hqp hk.symm)) h1
      have sub_case : ∀ (w1 : TxDoc) (data1 : JFields),
          (∀ q', w1.doc.getMap q' ≠ w.doc.getMap q' → (p ++ [f]) <+: q') →
          (writeFields w1 p data1 rest).1.doc.getMap q ≠ w.doc.getMap q →
          q = p ∨ ∃ g, g ∈ (Shape.cons f t rest).names ∧ (p ++ [g]) <+: q := by
        intro w1 data1 hmid hh
        by_cases h1 : w1.doc.getMap q = w.doc.getMap q
        · rw [← h1] at hh
          exact weaken (writeFields_frame rest w1 p data1 q hh)
        · exact Or.inr ⟨f, by simp [Shape.names], hmid q h1⟩
      rw [writeFields] at h
      match hg : data.get f with
      | none =>
          rw [hg] at h
          exact weaken (writeFields_frame rest w p data q h)
      | some v =>
          rw [hg] at h
          match t with
          | .sstr => exact inline_case v h
          | .sbool => exact inline_case v h
          | .sint => exact inline_case v h
          | .lit _ => exact inline_case v h
          | .raw _ => exact weaken (writeFields_frame rest w p data q h)
          | .obj sm true sub =>
              by_cases hsm : sm
              · simp only [hsm, if_true] at h
                exact weaken (writeFields_frame rest w p data q h)
              · simp only [hsm, Bool.false_eq_true, if_false] at h
                exact inline_case v h
          | .obj sm false sub =>
              match v with
              | .jobj gs =>
                  refine sub_case _ _ ?_ h
                  intro q' h1
                  rcases writeFields_frame sub w (p ++ [f]) (gs.del "key") q' h1 with
                    hq' | ⟨g, _, hg2⟩
                  · exact hq' ▸ List.prefix_refl _
                  · exact (List.prefix_append (p ++ [f]) [g]).trans hg2
              | .str _ => exact weaken (writeFields_frame rest w p data q h)
              | .bool _ => exact weaken (writeFields_frame rest w p data q h)
              | .int _ => exact weaken (writeFields_frame rest w p data q h)
              | .yref _ _ => exact weaken (writeFields_frame rest w p data q h)
              | .ydet _ => exact weaken (writeFields_frame rest w p data q h)
          | .union sm true disc vs =>
              by_cases hsm : sm
              · simp only [hsm, if_true] at h
                exact weaken (writeFields_frame rest w p data q h)
              · simp only [hsm, Bool.false_eq_true, if_false] at h
                exact inline_case v h
          | .union sm false disc vs =>
              match v with
              | .jobj gs =>
                  refine sub_case _ _ ?_ h
                  intro q' h1
                  exact writeVariants_frame vs w (p ++ [f]) gs disc q' h1
              | .str _ => exact weaken (writeFields_frame rest w p data q h)
              | .bool _ => exact weaken (writeFields_frame rest w p data q h)
              | .int _ => exact weaken (writeFields_frame rest w p data q h)
              | .yref _ _ => exact weaken (writeFields_frame rest w p data q h)
              | .ydet _ => exact weaken (writeFields_frame rest w p data q h)

/-- writeUnion only mutates containers at or beneath the union's own path. -/
theorem writeVariants_frame : ∀ (vs : Variants) (w : TxDoc) (p : Path)
    (gs : JFields) (disc : String) (q : Path),
    (writeVariants w p gs disc vs).1.doc.getMap q ≠ w.doc.getMap q →
    p <+: q
  | .nil, w, p, gs, disc, q, h => absurd rfl h
  | .cons sh r, w, p, gs, disc, q, h => by
      rw [writeVariants] at h
      match hfd : sh.find disc, hg : gs.get disc with
      | some (.lit dw), some dv =>
          rw [hfd, hg] at h
          by_cases hw : dw = dv
          · simp only [hw, if_true] at h
            rcases writeFields_frame sh w p (gs.del "key") q h with hq | ⟨g, _, hg2⟩
            · exact hq ▸ List.prefix_refl _
            · exact (List.prefix_append p [g]).trans hg2
          · simp only [hw, if_false] at h
            exact writeVariants_frame r w p gs disc q h
      | none, none => rw [hfd, hg] at h; exact writeVariants_frame r w p gs disc q h
      | none, some dv => rw [hfd, hg] at h; exact writeVariants_frame r w p gs disc q h
      | some .sstr, _ => rw [hfd] at h; exact writeVariants_frame r w p gs disc q h
      | some .sbool, _ => rw [hfd] at h; exact writeVariants_frame r w p gs disc q h
      | some .sint, _ => rw [hfd] at h; exact writeVariants_frame r w p gs disc q h
      | some (.lit dw), none => rw [hfd, hg] at h; exact writeVariants_frame r w p gs disc q h
      | some (.raw k), _ => rw [hfd] at h; exact writeVariants_frame r w p gs disc q h
      | some (.obj a b c), _ => rw [hfd] at h; exact writeVariants_frame r w p gs disc q h
      | some (.union a b c d), _ => rw [hfd] at h; exact writeVariants_frame r w p gs disc q h
end

/-- Nothing the row writer does touches a container outside the region at or
beneath its root path. -/
theorem writeFields_preserves_outside (sh : Shape) (w : TxDoc) (p : Path)
    (data : JFields) (q : Path) (h : ¬ (p <+: q)) :
    (writeFields w p data sh).1.doc.getMap q = w.doc.getMap q := by
  by_contra hne
  rcases writeFields_frame sh w p data q hne with hq | ⟨g, _, hg2⟩
  · exact h (hq ▸ List.prefix_refl _)
  · exact h ((List.prefix_append p [g]).trans hg2)

/-- Writing a shape that does not contain a field name leaves every container
at or beneath that field's sub-path untouched. -/
theorem writeFields_preserves_subregion (sh : Shape) (w : TxDoc) (p : Path)
    (data : JFields) (f : String) (q : Path)
    (hf : f ∉ sh.names) (hq : (p ++ [f]) <+: q) :
    (writeFields w p data sh).1.doc.getMap q = w.doc.getMap q := by
  by_contra hne
  rcases writeFields_frame sh w p data q hne with hqp | ⟨g, hg1, hg2⟩
  · exact prefix_cons_ne_self p f q hq hqp
  · exact hf ((prefix_cons_inj p f g q hq hg2) ▸ hg1)

theorem not_prefix_snoc_self (p : Path) (f : String) : ¬ ((p ++ [f]) <+: p) := by
  intro h
  have := h.length_le
  simp at this

theorem writeVariants_getMap_outside (vs : Variants) (w : TxDoc) (p : Path)
    (gs : JFields) (disc : String) (q : Path) (h : ¬ (p <+: q)) :
    (writeVariants w p gs disc vs).1.doc.getMap q = w.doc.getMap q := by
  by_contra hne
  exact h (writeVariants_frame vs w p gs disc q hne)

mutual
/-- The row writer never mutates raw shared containers. -/
theorem writeFields_raws : ∀ (sh : Shape) (w : TxDoc) (p : Path) (data : JFields),
    (writeFields w p data sh).1.doc.raws = w.doc.raws
  | .nil, _, _, _ => rfl
  | .cons f t rest, w, p, data => by
      rw [writeFields]
      match hg : data.get f with
      | none => exact writeFields_raws rest w p data
      | some v =>
          match t with
          | .sstr => exact writeFields_raws rest _ p data
          | .sbool => exact writeFields_raws rest _ p data
          | .sint => exact writeFields_raws rest _ p data
          | .lit _ => exact writeFields_raws rest _ p data
          | .raw _ => exact writeFields_raws rest w p data
          | .obj sm true sub =>
              by_cases hsm : sm
              · simp only [hsm, if_true]
                exact writeFields_raws rest w p data
              · simp only [hsm, Bool.false_eq_true, if_false]
                exact writeFields_raws rest _ p data
          | .obj sm false sub =>
              match v with
              | .jobj gs =>
                  exact (writeFields_raws rest _ p _).trans
                    (writeFields_raws sub w (p ++ [f]) (gs.del "key"))
              | .str _ => exact writeFields_raws rest w p data
              | .bool _ => exact writeFields_raws rest w p data
              | .int _ => exact writeFields_raws rest w p data
              | .yref _ _ => exact writeFields_raws rest w p data
              | .ydet _ => exact writeFields_raws rest w p data
          | .union sm true disc vs =>
              by_cases hsm : sm
              · simp only [hsm, if_true]
                exact writeFields_raws rest w p data
              · simp only [hsm, Bool.false_eq_true, if_false]
                exact writeFields_raws rest _ p data
          | .union sm false disc vs =>
              match v with
              | .jobj gs =>
                  exact (writeFields_raws rest _ p _).trans
                    (writeVariants_raws vs w (p ++ [f]) gs disc)
              | .str _ => exact writeFields_raws rest w p data
              | .bool _ => exact writeFields_raws rest w p data
              | .int _ => exact writeFields_raws rest w p data
              | .yref _ _ => exact writeFields_raws rest w p data
              | .ydet _ => exact writeFields_raws rest w p data

/-- The union writer never mutates raw shared containers. -/
theorem writeVariants_raws : ∀ (vs : Variants) (w : TxDoc) (p : Path)
    (gs : JFields) (disc : String),
    (writeVariants w p gs disc vs).1.doc.raws = w.doc.raws
  | .nil, _, _, _, _ => rfl
  | .cons sh r, w, p, gs, disc => by
      rw [writeVariants]
      match hfd : sh.find disc, hg : gs.get disc with
      | some (.lit dw), some dv =>
          by_cases hw : dw = dv
          · simp only [hw, if_true]
            exact writeFields_raws sh w p (gs.del "key")
          · simp only [hw, if_false]
            exact writeVariants_raws r w p gs disc
      | none, none => exact writeVariants_raws r w p gs disc
      | none, some dv => exact writeVariants_raws r w p gs disc
      | some .sstr, _ => exact writeVariants_raws r w p gs disc
      | some .sbool, _ => exact writeVariants_raws r w p gs disc
      | some .sint, _ => exact writeVariants_raws r w p gs disc
      | some (.lit dw), none => exact writeVariants_raws r w p gs disc
      | some (.raw k), _ => exact writeVariants_raws r w p gs disc
      | some (.obj a b c), _ => exact writeVariants_raws r w p gs disc
      | some (.union a b c d), _ => exact writeVariants_raws r w p gs disc
end

/-- Entries of the record's own map container whose names the shape does not
mention are untouched by the field-writing loop. -/
theorem writeFields_mapP : ∀ (sh : Shape) (w : TxDoc) (p : Path) (data : JFields)
    (n : String), n ∉ sh.names →
    ((writeFields w p data sh).1.doc.getMap p).get n = (w.doc.getMap p).get n
  | .nil, _, _, _, _, _ => rfl
  | .cons f t rest, w, p, data, n, h => by
      have hn_rest : n ∉ rest.names := fun hm => h (by simp [Shape.names, hm])
      have hnf : f ≠ n := fun he => h (by simp [Shape.names, he])
      have inl : ∀ v : JVal,
          ((writeFields (mapSet w p f v) p data rest).1.doc.getMap p).get n
            = ((w.doc.getMap p)).get n := by
        intro v
        rw [writeFields_mapP rest (mapSet w p f v) p data n hn_rest,
          mapSet_getMap_self]
        exact JFields.get_set_ne _ f n v hnf
      rw [writeFields]
      match hg : data.get f with
      | none => exact writeFields_mapP rest w p data n hn_rest
      | some v =>
          match t with
          | .sstr => exact inl v
          | .sbool => exact inl v
          | .sint => exact inl v
          | .lit _ => exact inl v
          | .raw _ => exact writeFields_mapP rest w p data n hn_rest
          | .obj sm true sub =>
              by_cases hsm : sm
              · simp only [hsm, if_true]
                exact writeFields_mapP rest w p data n hn_rest
              · simp only [hsm, Bool.false_eq_true, if_false]
                exact inl v
          | .obj sm false sub =>
              match v with
              | .jobj gs =>
                  rw [writeFields_mapP rest _ p _ n hn_rest,
                    writeFields_preserves_outside sub w (p ++ [f]) (gs.del "key") p
                      (not_prefix_snoc_self p f)]
              | .str _ => exact writeFields_mapP rest w p data n hn_rest
              | .bool _ => exact writeFields_mapP rest w p data n hn_rest
              | .int _ => exact writeFields_mapP rest w p data n hn_rest
              | .yref _ _ => exact writeFields_mapP rest w p data n hn_rest
              | .ydet _ => exact writeFields_mapP rest w p data n hn_rest
          | .union sm true disc vs =>
              by_cases hsm : sm
              · simp only [hsm, if_true]
                exact writeFields_mapP rest w p data n hn_rest
              · simp only [hsm, Bool.false_eq_true, if_false]
                exact inl v
          | .union sm false disc vs =>
              match v with
              | .jobj gs =>
                  rw [writeFields_mapP rest _ p _ n hn_rest,
                    writeVariants_getMap_outside vs w (p ++ [f]) gs disc p
                      (not_prefix_snoc_self p f)]
              | .str _ => exact writeFields_mapP rest w p data n hn_rest
              | .bool _ => exact writeFields_mapP rest w p data n hn_rest
              | .int _ => exact writeFields_mapP rest w p data n hn_rest
              | .yref _ _ => exact writeFields_mapP rest w p data n hn_rest
              | .ydet _ => exact writeFields_mapP rest w p data n hn_rest

/-- After the field-writing loop, an inline-stored field that was present in
the data sits in the record's map container with exactly that value. -/
theorem writeFields_inline_get : ∀ (sh : Shape) (w : TxDoc) (p : Path)
    (data : JFields) (f : String) (t : Sch) (v : JVal),
    nodupB sh.names → sh.find f = some t → storeKind t = .inline →
    data.get f = some v →
    ((writeFields w p data sh).1.doc.getMap p).get f = some v
  | .nil, _, _, _, _, _, _, _, hfd, _, _ => by simp [Shape.find] at hfd
  | .cons g t' rest, w, p, data, f, t, v, hnd, hfd, hsk, hgv => by
      have hnd' : nodupB rest.names ∧ g ∉ rest.names := by
        rw [Shape.names, nodupB] at hnd
        simp at hnd
        exact ⟨hnd.2, hnd.1⟩
      rw [Shape.find] at hfd
      by_cases hgf : g = f
      · subst hgf
        simp only [if_true] at hfd
        injection hfd with hfd
        have hfd2 : t = t' := hfd.symm
        subst hfd2
        rw [writeFields]
        match hg : data.get g with
        | none => rw [hg] at hgv; exact absurd hgv (by simp)
        | some v' =>
            have hv : v = v' := by
              rw [hg] at hgv
              injection hgv with hh
              exact hh.symm
            subst hv
            have done_inl :
                ((writeFields (mapSet w p g v) p data rest).1.doc.getMap p).get g
                  = some v := by
              rw [writeFields_mapP rest (mapSet w p g v) p data g hnd'.2,
                mapSet_getMap_self, JFields.get_set_self]
            match t with
            | .sstr => exact done_inl
            | .sbool => exact done_inl
            | .sint => exact done_inl
            | .lit _ => exact done_inl
            | .raw _ => simp [storeKind] at hsk
            | .obj sm true sub =>
                by_cases hsm : sm
                · rw [hsm] at hsk; simp [storeKind] at hsk
                · simp only [hsm, Bool.false_eq_true, if_false]
                  exact done_inl
            | .obj sm false sub => simp [storeKind] at hsk
            | .union sm true disc vs =>
                by_cases hsm : sm
                · rw [hsm] at hsk; simp [storeKind] at hsk
                · simp only [hsm, Bool.false_eq_true, if_false]
                  exact done_inl
            | .union sm false disc vs => simp [storeKind] at hsk
      · simp only [hgf, if_false] at hfd
        rw [writeFields]
        have set_pres : ∀ (w' : TxDoc) (u : JVal),
            ((writeFields w' p (data.set g u) rest).1.doc.getMap p).get f = some v :=
          fun w' u => writeFields_inline_get rest w' p (data.set g u) f t v
            hnd'.1 hfd hsk (by rw [JFields.get_set_ne data g f u hgf]; exact hgv)
        have plain : ∀ (w' : TxDoc),
            ((writeFields w' p data rest).1.doc.getMap p).get f = some v :=
          fun w' => writeFields_inline_get rest w' p data f t v hnd'.1 hfd hsk hgv
        match hg : data.get g with
        | none => exact plain w
        | some u =>
            match t' with
            | .sstr => exact plain _
            | .sbool => exact plain _
            | .sint => exact plain _
            | .lit _ => exact plain _
            | .raw _ => exact plain w
            | .obj sm true sub =>
                by_cases hsm : sm
                · simp only [hsm, if_true]
                  exact plain w
                · simp only [hsm, Bool.false_eq_true, if_false]
                  exact plain _
            | .obj sm false sub =>
                match u with
                | .jobj gs => exact set_pres _ _
                | .str _ => exact plain w
                | .bool _ => exact plain w
                | .int _ => exact plain w
                | .yref _ _ => exact plain w
                | .ydet _ => exact plain w
            | .union sm true disc vs =>
                by_cases hsm : sm
                · simp only [hsm, if_true]
                  exact plain w
                · simp only [hsm, Bool.false_eq_true, if_false]
                  exact plain _
            | .union sm false disc vs =>
                match u with
                | .jobj gs => exact set_pres _ _
                | .str _ => exact plain w
                | .bool _ => exact plain w
                | .int _ => exact plain w
                | .yref _ _ => exact plain w
                | .ydet _ => exact plain w

mutual
/-- The record reader only looks at map containers at or beneath its own
path: two documents agreeing there read identically. -/
theorem readFields_congr : ∀ (sh : Shape) (d1 d2 : Doc) (p : Path),
    (∀ q, p <+: q → d1.getMap q = d2.getMap q) →
    readFields d1 p sh = readFields d2 p sh
  | .nil, _, _, _, _ => rfl
  | .cons f t rest, d1, d2, p, h => by
      have hp : d1.getMap p = d2.getMap p := h p (List.prefix_refl p)
      have hrest := readFields_congr rest d1 d2 p h
      have hsub : ∀ q, (p ++ [f]) <+: q → d1.getMap q = d2.getMap q :=
        fun q hq => h q ((List.prefix_append p [f]).trans hq)
      have hpf : d1.getMap (p ++ [f]) = d2.getMap (p ++ [f]) :=
        h (p ++ [f]) (List.prefix_append p [f])
      match t with
      | .sstr => rw [readFields, readFields, hp, hrest] <;> simp
      | .sbool => rw [readFields, readFields, hp, hrest] <;> simp
      | .sint => rw [readFields, readFields, hp, hrest] <;> simp
      | .lit _ => rw [readFields, readFields, hp, hrest] <;> simp
      | .raw _ => rw [readFields, readFields, hrest]
      | .obj sm true sub =>
          rw [readFields, readFields]
          by_cases hsm : sm
          · simp only [hsm, if_true, hrest]
          · simp only [hsm, Bool.false_eq_true, if_false]
            rw [hp, hrest]
      | .obj sm false sub =>
          rw [readFields, readFields,
            readFields_congr sub d1 d2 (p ++ [f]) hsub, hrest]
      | .union sm true disc vs =>
          rw [readFields, readFields]
          by_cases hsm : sm
          · simp only [hsm, if_true, hrest]
          · simp only [hsm, Bool.false_eq_true, if_false]
            rw [hp, hrest]
      | .union sm false disc vs =>
          rw [readFields, readFields, hpf]
          match hd : (d2.getMap (p ++ [f])).get disc with
          | none => rfl
          | some dv =>
              dsimp only
              rw [readVariants_congr vs d1 d2 (p ++ [f]) dv disc hsub, hrest]

/-- The union reader only looks at map containers at or beneath its own
path. -/
theorem readVariants_congr : ∀ (vs : Variants) (d1 d2 : Doc) (p : Path)
    (dv : JVal) (disc : String),
    (∀ q, p <+: q → d1.getMap q = d2.getMap q) →
    readVariants d1 p dv disc vs = readVariants d2 p dv disc vs
  | .nil, _, _, _, _, _, _ => rfl
  | .cons sh r, d1, d2, p, dv, disc, h => by
      rw [readVariants, readVariants]
      match hfd : sh.find disc with
      | some (.lit w) =>
          by_cases hw : w = dv
          · simp only [hw, if_true]
            rw [readFields_congr sh d1 d2 p h]
          · simp only [hw, if_false]
            exact readVariants_congr r d1 d2 p dv disc h
      | none => exact readVariants_congr r d1 d2 p dv disc h
      | some .sstr => exact readVariants_congr r d1 d2 p dv disc h
      | some .sbool => exact readVariants_congr r d1 d2 p dv disc h
      | some .sint => exact readVariants_congr r d1 d2 p dv disc h
      | some (.raw k) => exact readVariants_congr r d1 d2 p dv disc h
      | some (.obj a b c) => exact readVariants_congr r d1 d2 p dv disc h
      | some (.union a b c d) => exact readVariants_congr r d1 d2 p dv disc h
end

/-- The expected read of a shape only consults properties at the shape's own
field names. -/
theorem eReadF_congr : ∀ (sh : Shape) (p : Path) (fs1 fs2 : JFields),
    (∀ g, g ∈ sh.names → fs1.get g = fs2.get g) →
    eReadF p sh fs1 = eReadF p sh fs2
  | .nil, _, _, _, _ => rfl
  | .cons f t rest, p, fs1, fs2, h => by
      rw [eReadF, eReadF, h f (by simp [Shape.names]),
        eReadF_congr rest p fs1 fs2 (fun g hg => h g (by simp [Shape.names, hg]))]

theorem goodShape_cons (f : String) (t : Sch) (rest : Shape)
    (h : goodShape (.cons f t rest) = true) :
    goodSch t = true ∧ goodShape rest = true := by
  rw [goodShape] at h
  simp at h
  exact h

/-- The per-field write condition for the round-trip theorem: every declared
field is either present and valid in the data object, or is a string field
that is absent from both the data and the backing map (the key property of
the row shape, which upsert deletes before writing). -/
def WriteOk (sh : Shape) (w : TxDoc) (p : Path) (data : JFields) : Prop :=
  ∀ g t', sh.find g = some t' →
    (∃ v, data.get g = some v ∧ parseV t' v = some v)
    ∨ (t' = .sstr ∧ data.get g = none ∧ (w.doc.getMap p).get g = none)

/-- The write condition transfers from a shape to its tail, for any data
object and transaction state agreeing with the originals away from the head
field. -/
theorem writeAll_tail (f : String) (t : Sch) (rest : Shape) (p : Path)
    (w wNext : TxDoc) (data data1 : JFields)
    (hfmem : f ∉ rest.names)
    (hall : WriteOk (.cons f t rest) w p data)
    (hd : ∀ g, g ≠ f → data1.get g = data.get g)
    (hm : ∀ g, g ≠ f → (wNext.doc.getMap p).get g = (w.doc.getMap p).get g) :
    WriteOk rest wNext p data1 := by
  intro g t' hg
  have hgf : g ≠ f := by
    intro he
    apply hfmem
    rw [← he, ← Shape.find_isSome_iff_mem_names]
    simp [hg]
  have hfg : f ≠ g := fun h => hgf h.symm
  rcases hall g t' (by rw [Shape.find]; simp [hfg, hg]) with ⟨v', hv1, hv2⟩ | ⟨ht, h1, h2⟩
  · exact Or.inl ⟨v', (hd g hgf).trans hv1, hv2⟩
  · exact Or.inr ⟨ht, (hd g hgf).trans h1, (hm g hgf).trans h2⟩

/-- Writing the remaining fields of a shape leaves the sub-region of a field
not among them untouched, so reads there are unaffected. -/
theorem readFields_after_tail (rest : Shape) (w1 : TxDoc) (p : Path)
    (data1 : JFields) (f : String) (sub1 : Shape) (hfmem : f ∉ rest.names) :
    readFields (writeFields w1 p data1 rest).1.doc (p ++ [f]) sub1
      = readFields w1.doc (p ++ [f]) sub1 :=
  readFields_congr sub1 _ _ (p ++ [f])
    (fun q hq => writeFields_preserves_subregion rest w1 p data1 f q hfmem hq)

/-- The conclusion of the round-trip theorem: the assembled object holds, at
every declared field, the expected read of the data value (absent fields stay
absent), and holds nothing at undeclared names. -/
def ReadBack (sh : Shape) (w : TxDoc) (p : Path) (data : JFields) : Prop :=
  ∃ asm, readFields (writeFields w p data sh).1.doc p sh = some asm
    ∧ (∀ g t', sh.find g = some t' →
        asm.get g = (data.get g).map (fun u => eReadV (p ++ [g]) t' u))
    ∧ (∀ n, n ∉ sh.names → asm.get n = none)

/-- Read-after-write step for a field stored inline in the parent map. -/
theorem RW_inline (f : String) (t : Sch) (rest : Shape) (w : TxDoc) (p : Path)
    (data : JFields) (v : JVal)
    (hgv : data.get f = some v)
    (hfmem : f ∉ rest.names)
    (heread : eReadV (p ++ [f]) t v = v)
    (hwrite : writeFields w p data (.cons f t rest)
        = writeFields (mapSet w p f v) p data rest)
    (hread : ∀ (d : Doc) (w0 : JVal) (asmR : JFields), (d.getMap p).get f = some w0 →
        readFields d p rest = some asmR →
        readFields d p (.cons f t rest) = some (asmR.set f w0))
    (IH : ReadBack rest (mapSet w p f v) p data) :
    ReadBack (.cons f t rest) w p data := by
  obtain ⟨asmR, hreadR, hgetR, hnames⟩ := IH
  have hmap : ((writeFields (mapSet w p f v) p data rest).1.doc.getMap p).get f = some v := by
    rw [writeFields_mapP rest (mapSet w p f v) p data f hfmem, mapSet_getMap_self,
      JFields.get_set_self]
  refine ⟨asmR.set f v, ?_, ?_, ?_⟩
  · rw [hwrite]
    exact hread _ v asmR hmap hreadR
  · intro g t' hgf'
    rw [Shape.find] at hgf'
    by_cases hfg : f = g
    · subst hfg
      simp only [if_true] at hgf'
      injection hgf' with hgf'
      subst hgf'
      rw [JFields.get_set_self, hgv]
      simp only [Option.map]
      rw [heread]
    · simp only [hfg, if_false] at hgf'
      rw [JFields.get_set_ne asmR f g v hfg, hgetR g t' hgf']
  · intro n hn
    rw [Shape.names] at hn
    simp at hn
    rw [JFields.get_set_ne asmR f n v (fun he => hn.1 he.symm)]
    exact hnames n hn.2

/-- Read-after-write step for a present field the writer skips and the reader
synthesises (raw containers, shallow nodes synced as maps). -/
theorem RW_skip (f : String) (t : Sch) (rest : Shape) (w : TxDoc) (p : Path)
    (data : JFields) (v hv : JVal)
    (hgv : data.get f = some v)
    (heread : eReadV (p ++ [f]) t v = hv)
    (hwrite : writeFields w p data (.cons f t rest) = writeFields w p data rest)
    (hread : ∀ (d : Doc) (asmR : JFields), readFields d p rest = some asmR →
        readFields d p (.cons f t rest) = some (asmR.set f hv))
    (IH : ReadBack rest w p data) :
    ReadBack (.cons f t rest) w p data := by
  obtain ⟨asmR, hreadR, hgetR, hnames⟩ := IH
  refine ⟨asmR.set f hv, ?_, ?_, ?_⟩
  · rw [hwrite]
    exact hread _ asmR hreadR
  · intro g t' hgf'
    rw [Shape.find] at hgf'
    by_cases hfg : f = g
    · subst hfg
      simp only [if_true] at hgf'
      injection hgf' with hgf'
      subst hgf'
      rw [JFields.get_set_self, hgv]
      simp only [Option.map]
      rw [heread]
    · simp only [hfg, if_false] at hgf'
      rw [JFields.get_set_ne asmR f g hv hfg, hgetR g t' hgf']
  · intro n hn
    rw [Shape.names] at hn
    simp at hn
    rw [JFields.get_set_ne asmR f n hv (fun he => hn.1 he.symm)]
    exact hnames n hn.2

/-- The round trip at the heart of upsert/getKey: writing a record whose
declared fields are present and valid (or are absent string fields with a
clean map slot, like the deleted key property), then reading the same shape
back from the resulting document, assembles an object that holds, at every
declared field, exactly the expected read of the written value.  No freshness
assumption on the document is needed beyond the absent fields: every other
property the reader consults is (re)written. -/
theorem readFields_writeFields : ∀ (sh : Shape) (w : TxDoc) (p : Path)
    (data : JFields),
    nodupB sh.names = true → goodShape sh = true →
    WriteOk sh w p data → ReadBack sh w p data
  | .nil, w, p, data, _, _, _ =>
      ⟨.nil, by rw [writeFields, readFields], by
        intro g t h
        simp [Shape.find] at h, fun n _ => rfl⟩
  | .cons f .sstr rest, w, p, data, hnd, hgs, hall => by
      rw [Shape.names] at hnd
      obtain ⟨hfmem, hndrest⟩ := nodupB_cons f rest.names hnd
      obtain ⟨hgt, hgrest⟩ := goodShape_cons f _ rest hgs
      rcases hall f .sstr (by simp [Shape.find]) with ⟨v, hgv, hfix⟩ | ⟨_, hgv, hmap0⟩
      · exact RW_inline f .sstr rest w p data v hgv hfmem rfl
          (by rw [writeFields]; simp only [hgv])
          (fun d w0 asmR h1 h2 => by rw [readFields] <;> simp [h1, h2])
          (readFields_writeFields rest (mapSet w p f v) p data hndrest hgrest
            (writeAll_tail f .sstr rest p w (mapSet w p f v) data data hfmem hall
              (fun _ _ => rfl)
              (fun g hg => by
                rw [mapSet_getMap_self]
                exact JFields.get_set_ne _ f g v (fun he => hg he.symm))))
      · obtain ⟨asmR, hreadR, hgetR, hnames⟩ := readFields_writeFields rest w p data
          hndrest hgrest
          (writeAll_tail f .sstr rest p w w data data hfmem hall
            (fun _ _ => rfl) (fun _ _ => rfl))
        have hwrite : writeFields w p data (.cons f .sstr rest)
            = writeFields w p data rest := by
          rw [writeFields]
          simp only [hgv]
        have hmapf : ((writeFields w p data rest).1.doc.getMap p).get f = none := by
          rw [writeFields_mapP rest w p data f hfmem]
          exact hmap0
        refine ⟨asmR, ?_, ?_, ?_⟩
        · rw [hwrite, readFields] <;> simp [hmapf, hreadR]
        · intro g t' hgf'
          rw [Shape.find] at hgf'
          by_cases hfg : f = g
          · subst hfg
            simp only [if_true] at hgf'
            injection hgf' with hgf'
            subst hgf'
            rw [hgv, hnames f hfmem]
            rfl
          · simp only [hfg, if_false] at hgf'
            exact hgetR g t' hgf'
        · intro n hn
          rw [Shape.names] at hn
          simp at hn
          exact hnames n hn.2
  | .cons f .sbool rest, w, p, data, hnd, hgs, hall => by
      rw [Shape.names] at hnd
      obtain ⟨hfmem, hndrest⟩ := nodupB_cons f rest.names hnd
      obtain ⟨hgt, hgrest⟩ := goodShape_cons f _ rest hgs
      rcases hall f .sbool (by simp [Shape.find]) with ⟨v, hgv, hfix⟩ | ⟨h, _, _⟩
      · exact RW_inline f .sbool rest w p data v hgv hfmem rfl
          (by rw [writeFields]; simp only [hgv])
          (fun d w0 asmR h1 h2 => by rw [readFields] <;> simp [h1, h2])
          (readFields_writeFields rest (mapSet w p f v) p data hndrest hgrest
            (writeAll_tail f .sbool rest p w (mapSet w p f v) data data hfmem hall
              (fun _ _ => rfl)
              (fun g hg => by
                rw [mapSet_getMap_self]
                exact JFields.get_set_ne _ f g v (fun he => hg he.symm))))
      · simp at h
  | .cons f .sint rest, w, p, data, hnd, hgs, hall => by
      rw [Shape.names] at hnd
      obtain ⟨hfmem, hndrest⟩ := nodupB_cons f rest.names hnd
      obtain ⟨hgt, hgrest⟩ := goodShape_cons f _ rest hgs
      rcases hall f .sint (by simp [Shape.find]) with ⟨v, hgv, hfix⟩ | ⟨h, _, _⟩
      · exact RW_inline f .sint rest w p data v hgv hfmem rfl
          (by rw [writeFields]; simp only [hgv])
          (fun d w0 asmR h1 h2 => by rw [readFields] <;> simp [h1, h2])
          (readFields_writeFields rest (mapSet w p f v) p data hndrest hgrest
            (writeAll_tail f .sint rest p w (mapSet w p f v) data data hfmem hall
              (fun _ _ => rfl)
              (fun g hg => by
                rw [mapSet_getMap_self]
                exact JFields.get_set_ne _ f g v (fun he => hg he.symm))))
      · simp at h
  | .cons f (.lit lv) rest, w, p, data, hnd, hgs, hall => by
      rw [Shape.names] at hnd
      obtain ⟨hfmem, hndrest⟩ := nodupB_cons f rest.names hnd
      obtain ⟨hgt, hgrest⟩ := goodShape_cons f _ rest hgs
      rcases hall f (.lit lv) (by simp [Shape.find]) with ⟨v, hgv, hfix⟩ | ⟨h, _, _⟩
      · exact RW_inline f (.lit lv) rest w p data v hgv hfmem rfl
          (by rw [writeFields]; simp only [hgv])
          (fun d w0 asmR h1 h2 => by rw [readFields] <;> simp [h1, h2])
          (readFields_writeFields rest (mapSet w p f v) p data hndrest hgrest
            (writeAll_tail f (.lit lv) rest p w (mapSet w p f v) data data hfmem hall
              (fun _ _ => rfl)
              (fun g hg => by
                rw [mapSet_getMap_self]
                exact JFields.get_set_ne _ f g v (fun he => hg he.symm))))
      · simp at h
  | .cons f (.raw k) rest, w, p, data, hnd, hgs, hall => by
      rw [Shape.names] at hnd
      obtain ⟨hfmem, hndrest⟩ := nodupB_cons f rest.names hnd
      obtain ⟨hgt, hgrest⟩ := goodShape_cons f _ rest hgs
      rcases hall f (.raw k) (by simp [Shape.find]) with ⟨v, hgv, hfix⟩ | ⟨h, _, _⟩
      · exact RW_skip f (.raw k) rest w p data v (.yref k (p ++ [f])) hgv rfl
          (by rw [writeFields]; simp only [hgv])
          (fun d asmR h2 => by rw [readFields] <;> simp [h2])
          (readFields_writeFields rest w p data hndrest hgrest
            (writeAll_tail f (.raw k) rest p w w data data hfmem hall
              (fun _ _ => rfl) (fun _ _ => rfl)))
      · simp at h
  | .cons f (.obj sm true sub) rest, w, p, data, hnd, hgs, hall => by
      rw [Shape.names] at hnd
      obtain ⟨hfmem, hndrest⟩ := nodupB_cons f rest.names hnd
      obtain ⟨hgt, hgrest⟩ := goodShape_cons f _ rest hgs
      rw [goodSch] at hgt
      simp at hgt
      subst hgt
      rcases hall f (.obj false true sub) (by simp [Shape.find]) with ⟨v, hgv, hfix⟩ | ⟨h, _, _⟩
      · exact RW_inline f (.obj false true sub) rest w p data v hgv hfmem
          (by simp [eReadV])
          (by rw [writeFields]; simp [hgv])
          (fun d w0 asmR h1 h2 => by rw [readFields] <;> simp [h1, h2])
          (readFields_writeFields rest (mapSet w p f v) p data hndrest hgrest
            (writeAll_tail f (.obj false true sub) rest p w (mapSet w p f v) data data
              hfmem hall (fun _ _ => rfl)
              (fun g hg => by
                rw [mapSet_getMap_self]
                exact JFields.get_set_ne _ f g v (fun he => hg he.symm))))
      · simp at h
  | .cons f (.union sm true disc vs) rest, w, p, data, hnd, hgs, hall => by
      rw [Shape.names] at hnd
      obtain ⟨hfmem, hndrest⟩ := nodupB_cons f rest.names hnd
      obtain ⟨hgt, hgrest⟩ := goodShape_cons f _ rest hgs
      rw [goodSch] at hgt
      simp at hgt
      subst hgt
      rcases hall f (.union false true disc vs) (by simp [Shape.find]) with
        ⟨v, hgv, hfix⟩ | ⟨h, _, _⟩
      · exact RW_inline f (.union false true disc vs) rest w p data v hgv hfmem
          (by simp [eReadV])
          (by rw [writeFields]; simp [hgv])
          (fun d w0 asmR h1 h2 => by rw [readFields] <;> simp [h1, h2])
          (readFields_writeFields rest (mapSet w p f v) p data hndrest hgrest
            (writeAll_tail f (.union false true disc vs) rest p w (mapSet w p f v)
              data data hfmem hall (fun _ _ => rfl)
              (fun g hg => by
                rw [mapSet_getMap_self]
                exact JFields.get_set_ne _ f g v (fun he => hg he.symm))))
      · simp at h
  | .cons f (.obj sm false sub) rest, w, p, data, hnd, hgs, hall => by
      rw [Shape.names] at hnd
      obtain ⟨hfmem, hndrest⟩ := nodupB_cons f rest.names hnd
      obtain ⟨hgt, hgrest⟩ := goodShape_cons f _ rest hgs
      rcases hall f (.obj sm false sub) (by simp [Shape.find]) with
        ⟨v, hgv, hfix⟩ | ⟨h, _, _⟩
      on_goal 2 => simp at h
      obtain ⟨gs, hv, hps⟩ := parseV_obj_fix_inv sm sub v hfix
      subst hv
      rw [goodSch] at hgt
      simp at hgt
      obtain ⟨⟨hndsub, hnksub⟩, hgsub⟩ := hgt
      have hallsub : WriteOk sub w (p ++ [f]) (gs.del "key") := by
        intro g t' hg
        obtain ⟨v', hget', hfix'⟩ := parseShape_fix_pointwise sub gs hps g t' hg
        have hgk : "key" ≠ g := by
          intro he
          apply hnksub
          rw [he, ← Shape.find_isSome_iff_mem_names]
          simp [hg]
        exact Or.inl ⟨v', (JFields.get_del_ne gs "key" g hgk).trans hget', hfix'⟩
      obtain ⟨asmS, hreadS, hgetS, hnamesS⟩ := readFields_writeFields sub w (p ++ [f])
        (gs.del "key") hndsub hgsub hallsub
      obtain ⟨asmR, hreadR, hgetR, hnamesR⟩ := readFields_writeFields rest
        (writeFields w (p ++ [f]) (gs.del "key") sub).1 p
        (data.set f (.jobj (writeFields w (p ++ [f]) (gs.del "key") sub).2))
        hndrest hgrest
        (writeAll_tail f (.obj sm false sub) rest p w _ data _ hfmem hall
          (fun g hg => JFields.get_set_ne data f g _ (fun he => hg he.symm))
          (fun g _ => by
            rw [writeFields_preserves_outside sub w (p ++ [f]) (gs.del "key") p
              (not_prefix_snoc_self p f)]))
      have hV : parseV (.obj sm false sub) (.jobj asmS)
          = some (.jobj (eReadF (p ++ [f]) sub (gs.del "key"))) := by
        rw [parseV, parseShape_eread sub (p ++ [f]) (gs.del "key") asmS hndsub ?_]
        · rfl
        · intro g t' hg
          obtain ⟨v', hget', hfix'⟩ := parseShape_fix_pointwise sub gs hps g t' hg
          have hgk : "key" ≠ g := by
            intro he
            apply hnksub
            rw [he, ← Shape.find_isSome_iff_mem_names]
            simp [hg]
          have hdg : (gs.del "key").get g = some v' :=
            (JFields.get_del_ne gs "key" g hgk).trans hget'
          refine ⟨?_, ?_⟩
          · rw [hgetS g t' hg, hdg]
            rfl
          · rw [hdg]
            simp only [Option.getD_some]
            exact eread_fix t' ((p ++ [f]) ++ [g]) v'
              (goodShape_find sub g t' hgsub hg) hfix'
      have hEV : eReadV (p ++ [f]) (.obj sm false sub) (.jobj gs)
          = .jobj (eReadF (p ++ [f]) sub gs) := by
        rw [eReadV]
      have hEC : eReadF (p ++ [f]) sub (gs.del "key") = eReadF (p ++ [f]) sub gs := by
        refine eReadF_congr sub (p ++ [f]) _ _ (fun g hg => ?_)
        exact JFields.get_del_ne gs "key" g (fun he => hnksub (he ▸ hg))
      rw [ReadBack, writeFields]
      simp only [hgv]
      refine ⟨asmR.set f (.jobj (eReadF (p ++ [f]) sub (gs.del "key"))), ?_, ?_, ?_⟩
      · rw [readFields]
        rw [readFields_after_tail rest _ p _ f sub hfmem, hreadS]
        simp only [hV, hreadR]
        rfl
      · intro g t' hgf'
        rw [Shape.find] at hgf'
        by_cases hfg : f = g
        · subst hfg
          simp only [if_true] at hgf'
          injection hgf' with hgf'
          subst hgf'
          rw [JFields.get_set_self, hgv]
          simp only [Option.map]
          rw [hEV, hEC]
        · simp only [hfg, if_false] at hgf'
          rw [JFields.get_set_ne asmR f g _ hfg, hgetR g t' hgf',
            JFields.get_set_ne data f g _ hfg]
      · intro n hn
        rw [Shape.names] at hn
        simp at hn
        rw [JFields.get_set_ne asmR f n _ (fun he => hn.1 he.symm),
          hnamesR n hn.2]
  | .cons f (.union sm false disc vs) rest, w, p, data, hnd, hgs, hall => by
      rw [Shape.names] at hnd
      obtain ⟨hfmem, hndrest⟩ := nodupB_cons f rest.names hnd
      obtain ⟨hgt, hgrest⟩ := goodShape_cons f _ rest hgs
      rcases hall f (.union sm false disc vs) (by simp [Shape.find]) with
        ⟨v, hgv, hfix⟩ | ⟨h, _, _⟩
      on_goal 2 => simp at h
      obtain ⟨gs, dv, vsh, hv, hdisc, hfd, hps⟩ :=
        parseV_union_fix_inv sm disc vs v hfix
      subst hv
      rw [goodSch] at hgt
      simp at hgt
      obtain ⟨hndv, hnkv, hgvsh, hfdisc⟩ := goodVars_findVariant vs disc dv vsh hgt hfd
      have hdk : "key" ≠ disc := by
        intro he
        apply hnkv
        rw [he, ← Shape.find_isSome_iff_mem_names]
        simp [hfdisc]
      have hallvsh : WriteOk vsh w (p ++ [f]) (gs.del "key") := by
        intro g t' hg
        obtain ⟨v', hget', hfix'⟩ := parseShape_fix_pointwise vsh gs hps g t' hg
        have hgk : "key" ≠ g := by
          intro he
          apply hnkv
          rw [he, ← Shape.find_isSome_iff_mem_names]
          simp [hg]
        exact Or.inl ⟨v', (JFields.get_del_ne gs "key" g hgk).trans hget', hfix'⟩
      obtain ⟨asmS, hreadS, hgetS, hnamesS⟩ := readFields_writeFields vsh w (p ++ [f])
        (gs.del "key") hndv hgvsh hallvsh
      have hwv : writeVariants w (p ++ [f]) gs disc vs
          = writeFields w (p ++ [f]) (gs.del "key") vsh := by
        rw [writeVariants_eq_findVariant]
        simp only [hdisc, hfd]
      obtain ⟨asmR, hreadR, hgetR, hnamesR⟩ := readFields_writeFields rest
        (writeVariants w (p ++ [f]) gs disc vs).1 p
        (data.set f (.jobj (writeVariants w (p ++ [f]) gs disc vs).2))
        hndrest hgrest
        (writeAll_tail f (.union sm false disc vs) rest p w _ data _ hfmem hall
          (fun g hg => JFields.get_set_ne data f g _ (fun he => hg he.symm))
          (fun g _ => by
            rw [hwv, writeFields_preserves_outside vsh w (p ++ [f]) (gs.del "key") p
              (not_prefix_snoc_self p f)]))
      rw [hwv] at hreadR
      have hdiscfin :
          (((writeFields (writeVariants w (p ++ [f]) gs disc vs).1 p
              (data.set f (.jobj (writeVariants w (p ++ [f]) gs disc vs).2))
              rest).1.doc.getMap (p ++ [f]))).get disc = some dv := by
        rw [writeFields_preserves_subregion rest _ p _ f (p ++ [f]) hfmem
          (List.prefix_refl _), hwv]
        exact writeFields_inline_get vsh w (p ++ [f]) (gs.del "key") disc
          (.lit dv) dv hndv hfdisc rfl
          ((JFields.get_del_ne gs "key" disc hdk).trans hdisc)
      have hV : parseV (.obj false false vsh) (.jobj asmS)
          = some (.jobj (eReadF (p ++ [f]) vsh (gs.del "key"))) := by
        rw [parseV, parseShape_eread vsh (p ++ [f]) (gs.del "key") asmS hndv ?_]
        · rfl
        · intro g t' hg
          obtain ⟨v', hget', hfix'⟩ := parseShape_fix_pointwise vsh gs hps g t' hg
          have hgk : "key" ≠ g := by
            intro he
            apply hnkv
            rw [he, ← Shape.find_isSome_iff_mem_names]
            simp [hg]
          have hdg : (gs.del "key").get g = some v' :=
            (JFields.get_del_ne gs "key" g hgk).trans hget'
          refine ⟨?_, ?_⟩
          · rw [hgetS g t' hg, hdg]
            rfl
          · rw [hdg]
            simp only [Option.getD_some]
            exact eread_fix t' ((p ++ [f]) ++ [g]) v'
              (goodShape_find vsh g t' hgvsh hg) hfix'
      have hEV : eReadV (p ++ [f]) (.union sm false disc vs) (.jobj gs)
          = .jobj (eReadF (p ++ [f]) vsh gs) := by
        rw [eReadV, hdisc]
        simp only [Option.getD_some]
        simp only [eReadVariants_eq_findVariant, hfd]
      have hEC : eReadF (p ++ [f]) vsh (gs.del "key") = eReadF (p ++ [f]) vsh gs := by
        refine eReadF_congr vsh (p ++ [f]) _ _ (fun g hg => ?_)
        exact JFields.get_del_ne gs "key" g (fun he => hnkv (he ▸ hg))
      rw [ReadBack, writeFields]
      simp only [hgv]
      refine ⟨asmR.set f (.jobj (eReadF (p ++ [f]) vsh (gs.del "key"))), ?_, ?_, ?_⟩
      · rw [readFields]
        simp only [hdiscfin]
        rw [readVariants_eq_findVariant]
        simp only [hfd]
        rw [readFields_after_tail rest _ p _ f vsh hfmem, hwv, hreadS]
        simp only [hV, hreadR]
        rfl
      · intro g t' hgf'
        rw [Shape.find] at hgf'
        by_cases hfg : f = g
        · subst hfg
          simp only [if_true] at hgf'
          injection hgf' with hgf'
          subst hgf'
          rw [JFields.get_set_self, hgv]
          simp only [Option.map]
          rw [hEV, hEC]
        · simp only [hfg, if_false] at hgf'
          rw [JFields.get_set_ne asmR f g _ hfg, hgetR g t' hgf',
            JFields.get_set_ne data f g _ hfg]
      · intro n hn
        rw [Shape.names] at hn
        simp at hn
        rw [JFields.get_set_ne asmR f n _ (fun he => hn.1 he.symm),
          hnamesR n hn.2]
termination_by sh _ _ _ _ _ _ => sizeOf sh
decreasing_by
  all_goals simp_wf
  all_goals try simp only [Shape.cons.sizeOf_spec, Sch.obj.sizeOf_spec, Sch.union.sizeOf_spec]
  all_goals try omega
  all_goals have := findVariant_sizeOf vs disc dv vsh hfd
  all_goals omega

/-- findVariant on a raw-free variant list lands on a duplicate-free,
raw-free variant shape. -/
theorem dataOnlyVars_findVariant : ∀ (vs : Variants) (disc : String) (dv : JVal)
    (vsh : Shape), dataOnlyVars vs = true → findVariant vs disc dv = some vsh →
    nodupB vsh.names = true ∧ dataOnlyShape vsh = true
  | .nil, disc, dv, vsh, hd, h => by simp [findVariant] at h
  | .cons sh r, disc, dv, vsh, hd, h => by
      rw [dataOnlyVars] at hd
      simp at hd
      obtain ⟨⟨hnd, hds⟩, hdr⟩ := hd
      simp only [findVariant] at h
      match hfd : sh.find disc with
      | some (.lit w) =>
          rw [hfd] at h
          by_cases hw : w = dv
          · simp [hw] at h
            subst h
            exact ⟨hnd, hds⟩
          · simp [hw] at h
            exact dataOnlyVars_findVariant r disc dv vsh hdr h
      | none => rw [hfd] at h; exact dataOnlyVars_findVariant r disc dv vsh hdr h
      | some .sstr => rw [hfd] at h; exact dataOnlyVars_findVariant r disc dv vsh hdr h
      | some .sbool => rw [hfd] at h; exact dataOnlyVars_findVariant r disc dv vsh hdr h
      | some .sint => rw [hfd] at h; exact dataOnlyVars_findVariant r disc dv vsh hdr h
      | some (.raw kk) => rw [hfd] at h; exact dataOnlyVars_findVariant r disc dv vsh hdr h
      | some (.obj a b c) => rw [hfd] at h; exact dataOnlyVars_findVariant r disc dv vsh hdr h
      | some (.union a b c d) => rw [hfd] at h; exact dataOnlyVars_findVariant r disc dv vsh hdr h

/-- When every stored field parses to itself and reads back as itself, the
expected read of a duplicate-free shape is exactly the parse result. -/
theorem eReadF_eq_of_parseShape : ∀ (sh : Shape) (p : Path) (fs out : JFields),
    nodupB sh.names = true →
    parseShape sh fs = some out →
    (∀ f t v, sh.find f = some t → fs.get f = some v → parseV t v = some v) →
    (∀ f t v, sh.find f = some t → fs.get f = some v → eReadV (p ++ [f]) t v = v) →
    eReadF p sh fs = out
  | .nil, p, fs, out, _, h, _, _ => by
      rw [parseShape] at h
      injection h with h
      try rw [← h]
  | .cons f t r, p, fs, out, hnd, h, hfixes, hids => by
      rw [Shape.names] at hnd
      obtain ⟨hfmem, hndr⟩ := nodupB_cons f r.names hnd
      obtain ⟨w, w', ro, hget, hpw, hpr, hout⟩ := parseShape_cons_inv f t r fs out h
      have hfind : (Shape.cons f t r).find f = some t := by simp [Shape.find]
      have hw' : w = w' := by
        have hh := hfixes f t w hfind hget
        rw [hpw] at hh
        injection hh with hh
        exact hh.symm
      subst hw'
      rw [eReadF, hout, hget]
      simp only [Option.getD_some]
      rw [hids f t w hfind hget]
      rw [eReadF_eq_of_parseShape r p fs ro hndr hpr ?_ ?_]
      · intro g t' v hg hgv
        have hfg : f ≠ g := by
          intro he
          apply hfmem
          rw [he, ← Shape.find_isSome_iff_mem_names]
          simp [hg]
        exact hfixes g t' v (by rw [Shape.find]; simp [hfg, hg]) hgv
      · intro g t' v hg hgv
        have hfg : f ≠ g := by
          intro he
          apply hfmem
          rw [he, ← Shape.find_isSome_iff_mem_names]
          simp [hg]
        exact hids g t' v (by rw [Shape.find]; simp [hfg, hg]) hgv

/-- On raw-free schemas the expected read is the identity: valid stored
values read back exactly as written. -/
theorem eread_id : ∀ (t : Sch) (p : Path) (w : JVal),
    dataOnly t = true → parseV t w = some w →
    eReadV p t w = w
  | .sstr, _, _, _, _ => rfl
  | .sbool, _, _, _, _ => rfl
  | .sint, _, _, _, _ => rfl
  | .lit _, _, _, _, _ => rfl
  | .raw k, p, w, hd, _ => by rw [dataOnly] at hd; simp at hd
  | .obj sm true sub, p, w, hd, hfix => by
      rw [dataOnly] at hd
      simp at hd
      subst hd
      simp [eReadV]
  | .obj sm false sub, p, w, hd, hfix => by
      obtain ⟨gs, hv, hps⟩ := parseV_obj_fix_inv sm sub w hfix
      subst hv
      rw [dataOnly] at hd
      simp at hd
      obtain ⟨hnd, hds⟩ := hd
      have hER : eReadV p (.obj sm false sub) (.jobj gs) = .jobj (eReadF p sub gs) := by
        rw [eReadV]
      rw [hER, eReadF_eq_of_parseShape sub p gs gs hnd hps ?_ ?_]
      · intro f t' v hf hgv
        obtain ⟨v2, hget2, hfix2⟩ := parseShape_fix_pointwise sub gs hps f t' hf
        rw [hgv] at hget2
        injection hget2 with he
        subst he
        exact hfix2
      · intro f t' v hf hgv
        obtain ⟨v2, hget2, hfix2⟩ := parseShape_fix_pointwise sub gs hps f t' hf
        rw [hgv] at hget2
        injection hget2 with he
        subst he
        exact eread_id t' (p ++ [f]) v (dataOnlyShape_find sub f t' hds hf) hfix2
  | .union sm true disc vs, p, w, hd, hfix => by
      rw [dataOnly] at hd
      simp at hd
      subst hd
      simp [eReadV]
  | .union sm false disc vs, p, w, hd, hfix => by
      obtain ⟨gs, dv, vsh, hv, hdisc, hfd, hps⟩ := parseV_union_fix_inv sm disc vs w hfix
      subst hv
      rw [dataOnly] at hd
      simp at hd
      obtain ⟨hnd, hds⟩ := dataOnlyVars_findVariant vs disc dv vsh hd hfd
      have hER : eReadV p (.union sm false disc vs) (.jobj gs)
          = .jobj (eReadF p vsh gs) := by
        rw [eReadV, hdisc]
        simp only [Option.getD_some]
        simp only [eReadVariants_eq_findVariant, hfd]
      rw [hER, eReadF_eq_of_parseShape vsh p gs gs hnd hps ?_ ?_]
      · intro f t' v hf hgv
        obtain ⟨v2, hget2, hfix2⟩ := parseShape_fix_pointwise vsh gs hps f t' hf
        rw [hgv] at hget2
        injection hget2 with he
        subst he
        exact hfix2
      · intro f t' v hf hgv
        obtain ⟨v2, hget2, hfix2⟩ := parseShape_fix_pointwise vsh gs hps f t' hf
        rw [hgv] at hget2
        injection hget2 with he
        subst he
        exact eread_id t' (p ++ [f]) v (dataOnlyShape_find vsh f t' hds hf) hfix2
termination_by t _ _ _ _ => sizeOf t
decreasing_by
  all_goals simp_wf
  · have := Shape.find_sizeOf sub f t' (by assumption)
    omega
  · have h1 := Shape.find_sizeOf vsh f t' (by assumption)
    have h2 := findVariant_sizeOf vs disc dv vsh (by assumption)
    omega

/-- A key that is live in the index, passes the filter and reads back fully
contributes its read to the select result. -/
theorem selectR_mem_of (doc : Doc) (T : Table) (q : Filter) (k : String) (r : JVal)
    (hk : k ∈ (doc.getMap [T.name]).names)
    (hq : q (doc.getMap [T.name, k]) = true)
    (hr : readDataPresent doc T k = some r) :
    r ∈ selectR doc T q := by
  rw [selectR, List.mem_filterMap]
  exact ⟨k, hk, by simp [hq, hr]⟩

/-- After a full row write, the validated point read at the row's path
returns exactly the expected read of the row fields (the key property is
synthesised from the row key). -/
theorem readObjectR_writeback (D : Doc) (T : Table) (k : String) (fs asm : JFields)
    (hnd : nodupB T.shape.names = true) (hgsh : goodShape T.shape = true)
    (hfindkey : T.shape.find "key" = some .sstr)
    (hkey : fs.get "key" = some (.str k))
    (hps : parseShape T.shape fs = some fs)
    (hread : readFields D [T.name, k] T.shape = some asm)
    (hget : ∀ g t', T.shape.find g = some t' →
        asm.get g = ((fs.del "key").get g).map (fun u => eReadV ([T.name, k] ++ [g]) t' u)) :
    readObjectR D [T.name, k] T.shape (some k)
      = some (.jobj (eReadF [T.name, k] T.shape fs)) := by
  rw [readObjectR]
  simp only [hread, hfindkey, Option.isSome_some, if_true]
  rw [parseV, parseShape_eread T.shape [T.name, k] fs (asm.set "key" (.str k)) hnd ?_]
  · rfl
  · intro g t' hg
    by_cases hgk : g = "key"
    · subst hgk
      rw [hfindkey] at hg
      injection hg with hg
      subst hg
      refine ⟨?_, ?_⟩
      · rw [JFields.get_set_self, hkey]
        rfl
      · rw [hkey]
        rfl
    · obtain ⟨v, hv1, hv2⟩ := parseShape_fix_pointwise T.shape fs hps g t' hg
      have hdg : (fs.del "key").get g = some v :=
        (JFields.get_del_ne fs "key" g (fun he => hgk he.symm)).trans hv1
      refine ⟨?_, ?_⟩
      · rw [JFields.get_set_ne asm "key" g (.str k) (fun he => hgk he.symm),
          hget g t' hg, hdg, hv1]
        rfl
      · rw [hv1]
        simp only [Option.getD_some]
        exact eread_fix t' ([T.name, k] ++ [g]) v (goodShape_find T.shape g t' hgsh hg) hv2

/-- upsert on a valid row succeeds and reads back: getKey returns the
expected read of the row (raw fields come back as attached handles at their
paths, everything else as written), and that value is in the result of an
unfiltered select.  The only freshness needed is a clean key slot in the
row's own map container. -/
theorem upsert_reads_back (doc : Doc) (T : Table) (fs : JFields) (k : String)
    (hgood : goodTable T = true)
    (hfix : parseV (rowSch T) (.jobj fs) = some (.jobj fs))
    (hkey : fs.get "key" = some (.str k))
    (hclean : (doc.getMap [T.name, k]).get "key" = none) :
    (upsert doc T (.jobj fs)).1 = none
    ∧ getKey (upsert doc T (.jobj fs)).2.doc T k
        = some (.jobj (eReadF [T.name, k] T.shape fs))
    ∧ (JVal.jobj (eReadF [T.name, k] T.shape fs))
        ∈ selectR (upsert doc T (.jobj fs)).2.doc T anyF := by
  have hgood' := hgood
  rw [goodTable] at hgood'
  simp at hgood'
  obtain ⟨⟨hnd, hkt⟩, hgsh⟩ := hgood'
  have hfindkey : T.shape.find "key" = some .sstr := by
    split at hkt
    · assumption
    · simp at hkt
  have hfix' : parseV (.obj false false T.shape) (.jobj fs) = some (.jobj fs) := hfix
  obtain ⟨gs, hgseq, hps⟩ := parseV_obj_fix_inv false T.shape (.jobj fs) hfix'
  injection hgseq with hgseq
  subst hgseq
  have hrk : rowKey (.jobj fs) = k := by
    rw [rowKey]
    simp only [hkey]
  have hwok : WriteOk T.shape ⟨doc, []⟩ [T.name, k] (fs.del "key") := by
    intro g t' hg
    by_cases hgk : g = "key"
    · subst hgk
      rw [hfindkey] at hg
      injection hg with hg
      subst hg
      exact Or.inr ⟨rfl, JFields.get_del_self fs "key", hclean⟩
    · obtain ⟨v, hv1, hv2⟩ := parseShape_fix_pointwise T.shape fs hps g t' hg
      exact Or.inl ⟨v,
        (JFields.get_del_ne fs "key" g (fun he => hgk he.symm)).trans hv1, hv2⟩
  obtain ⟨asm, hread, hget, hnames⟩ := readFields_writeFields T.shape ⟨doc, []⟩
    [T.name, k] (fs.del "key") hnd hgsh hwok
  have hup1 : (upsert doc T (.jobj fs)).1 = none := by
    simp only [upsert, hfix]
  have hup2 : (upsert doc T (.jobj fs)).2
      = mapSet (writeFields ⟨doc, []⟩ [T.name, k] (fs.del "key") T.shape).1
          [T.name] k (.bool true) := by
    simp only [upsert, hfix, hrk]
    rfl
  have hagree : ∀ q, [T.name, k] <+: q →
      (mapSet (writeFields ⟨doc, []⟩ [T.name, k] (fs.del "key") T.shape).1
          [T.name] k (.bool true)).doc.getMap q
        = (writeFields ⟨doc, []⟩ [T.name, k] (fs.del "key") T.shape).1.doc.getMap q := by
    intro q hq
    refine mapSet_getMap_ne _ [T.name] q k (.bool true) ?_
    intro he
    rw [← he] at hq
    have := hq.length_le
    simp at this
  have hreadFD :
      readFields (mapSet (writeFields ⟨doc, []⟩ [T.name, k] (fs.del "key") T.shape).1
          [T.name] k (.bool true)).doc [T.name, k] T.shape = some asm := by
    rw [readFields_congr T.shape _ _ [T.name, k] hagree, hread]
  have hobj := readObjectR_writeback
    (mapSet (writeFields ⟨doc, []⟩ [T.name, k] (fs.del "key") T.shape).1
      [T.name] k (.bool true)).doc T k fs asm hnd hgsh hfindkey hkey hps hreadFD hget
  refine ⟨hup1, ?_, ?_⟩
  · rw [hup2, getKey, readData]
    have hhas : ((mapSet (writeFields ⟨doc, []⟩ [T.name, k] (fs.del "key") T.shape).1
        [T.name] k (.bool true)).doc.getMap [T.name]).has k = true := by
      rw [mapSet_getMap_self, JFields.has, JFields.get_set_self]
      rfl
    rw [hhas]
    simp only [if_true]
    exact hobj
  · rw [hup2]
    refine selectR_mem_of _ T anyF k _ ?_ rfl ?_
    · apply JFields.mem_names_of_get_isSome
      rw [mapSet_getMap_self, JFields.get_set_self]
      rfl
    · rw [readDataPresent]
      exact hobj

/-- The raw-table scenario for the C1/C8 corrections: a table with a raw
shared-container field (z.instanceof(Y.Map) with syncAs metadata). -/
def rTable : Table :=
  { name := "rt", shape := .cons "key" .sstr (.cons "m" (.raw .ymap) .nil) }

/-- A valid row for rTable carrying a detached raw container instance. -/
def rRow : JVal :=
  .jobj (.cons "key" (.str "r") (.cons "m" (.ydet .ymap) .nil))

/-- A raw-free table for the C1 witness. -/
def dTable : Table :=
  { name := "dt", shape := .cons "key" .sstr (.cons "x" .sint .nil) }

/-- A valid row for dTable. -/
def dRowF : JFields :=
  .cons "key" (.str "a") (.cons "x" (.int 5) .nil)

/-- Claim C1 (counterexample) — the as-written round trip fails for tables
with raw shared-container fields: the row value satisfies the schema and
upsert succeeds, but getKey returns the attached container handle at the
field's path, not the detached instance the caller passed, so the result is
not equal to the original row. -/
theorem upsert_raw_row_does_not_read_back_identically :
    parseV (rowSch rTable) rRow = some rRow
    ∧ (upsert ⟨[], []⟩ rTable rRow).1 = none
    ∧ getKey (upsert ⟨[], []⟩ rTable rRow).2.doc rTable "r" ≠ some rRow
    ∧ getKey (upsert ⟨[], []⟩ rTable rRow).2.doc rTable "r"
        = some (.jobj (.cons "key" (.str "r")
            (.cons "m" (.yref .ymap ["rt", "r", "m"]) .nil))) := by decide

/-- Claim C1 (amended) — for a well-formed table whose schema stores no raw
shared containers, upsert of a schema-valid row succeeds and the row reads
back exactly: getKey on the row key returns the row, and the row appears in
an unfiltered select.  The only freshness required of the document is that
the row's own map container has no stray entry under the reserved name key
(the key property lives in the caller's object and the table index, never in
the row container). -/
theorem upsert_getKey_select_roundtrip (doc : Doc) (T : Table) (fs : JFields)
    (k : String)
    (hgood : goodTable T = true)
    (hdata : dataOnlyShape T.shape = true)
    (hfix : parseV (rowSch T) (.jobj fs) = some (.jobj fs))
    (hkey : fs.get "key" = some (.str k))
    (hclean : (doc.getMap [T.name, k]).get "key" = none) :
    (upsert doc T (.jobj fs)).1 = none
    ∧ getKey (upsert doc T (.jobj fs)).2.doc T k = some (.jobj fs)
    ∧ (JVal.jobj fs) ∈ selectR (upsert doc T (.jobj fs)).2.doc T anyF := by
  obtain ⟨h1, h2, h3⟩ := upsert_reads_back doc T fs k hgood hfix hkey hclean
  have hps : parseShape T.shape fs = some fs := by
    obtain ⟨gs, hgseq, hps0⟩ := parseV_obj_fix_inv false T.shape (.jobj fs) hfix
    injection hgseq with hgseq
    subst hgseq
    exact hps0
  have hnd : nodupB T.shape.names = true := by
    have hg := hgood
    rw [goodTable] at hg
    simp at hg
    exact hg.1.1
  have hid : eReadF [T.name, k] T.shape fs = fs := by
    refine eReadF_eq_of_parseShape T.shape [T.name, k] fs fs hnd hps ?_ ?_
    · intro f t v hf hgv
      obtain ⟨v2, hv1, hv2⟩ := parseShape_fix_pointwise T.shape fs hps f t hf
      rw [hgv] at hv1
      injection hv1 with he
      subst he
      exact hv2
    · intro f t v hf hgv
      obtain ⟨v2, hv1, hv2⟩ := parseShape_fix_pointwise T.shape fs hps f t hf
      rw [hgv] at hv1
      injection hv1 with he
      subst he
      exact eread_id t ([T.name, k] ++ [f]) v
        (dataOnlyShape_find T.shape f t hdata hf) hv2
  rw [hid] at h2 h3
  exact ⟨h1, h2, h3⟩

theorem upsert_getKey_select_roundtrip_witness :
    (upsert ⟨[], []⟩ dTable (.jobj dRowF)).1 = none
    ∧ getKey (upsert ⟨[], []⟩ dTable (.jobj dRowF)).2.doc dTable "a"
        = some (.jobj dRowF)
    ∧ (JVal.jobj dRowF)
        ∈ selectR (upsert ⟨[], []⟩ dTable (.jobj dRowF)).2.doc dTable anyF :=
  upsert_getKey_select_roundtrip ⟨[], []⟩ dTable dRowF "a" (by decide) (by decide)
    (by decide) (by decide) (by decide)

theorem writeObjectW_raws (w : TxDoc) (p : Path) (v : JVal) (sh : Shape) :
    (writeObjectW w p v sh).1.doc.raws = w.doc.raws := by
  match v with
  | .jobj fs => exact writeFields_raws sh w p (fs.del "key")
  | .str s => rfl
  | .bool b => rfl
  | .int n => rfl
  | .yref a b => rfl
  | .ydet a => rfl

theorem writeData_raws (doc : Doc) (tn k : String) (v : JVal) (up : Bool)
    (sh : Shape) : (writeData doc tn k v up sh).1.doc.raws = doc.raws := by
  rw [writeData]
  match up with
  | true => exact (mapSet_raws _ _ _ _).trans (writeObjectW_raws ⟨doc, []⟩ [tn, k] v sh)
  | false => exact writeObjectW_raws ⟨doc, []⟩ [tn, k] v sh

theorem upsert_raws (doc : Doc) (T : Table) (row : JVal) :
    (upsert doc T row).2.doc.raws = doc.raws := by
  rw [upsert]
  match h : parseV (rowSch T) row with
  | none => rfl
  | some v => exact writeData_raws doc T.name (rowKey row) v true T.shape

theorem updateOp_raws (doc : Doc) (T : Table) (u : JVal) :
    (updateOp doc T u).1.doc.raws = doc.raws := by
  rw [updateOp]
  exact writeData_raws doc T.name (rowKey u) u false T.shape

/-- The C8 scenario: a table with an inline field and a raw container field;
upsert a row, mutate the raw container through its own API, remove the row,
then upsert a replacement row. -/
def r8Table : Table :=
  { name := "r8",
    shape := .cons "key" .sstr (.cons "n" .sint (.cons "m" (.raw .ymap) .nil)) }

def r8Row : JVal :=
  .jobj (.cons "key" (.str "x") (.cons "n" (.int 1) (.cons "m" (.ydet .ymap) .nil)))

def r8Row2 : JVal :=
  .jobj (.cons "key" (.str "x") (.cons "n" (.int 2) (.cons "m" (.ydet .ymap) .nil)))

def r8d1 : TxDoc := (upsert ⟨[], []⟩ r8Table r8Row).2

/-- Direct mutation of the raw container at its path (row.rawMap.set in the
repository's tests), outside the mutation API. -/
def r8d2 : TxDoc := rawSet ⟨r8d1.doc, []⟩ ["r8", "x", "m"] 7

def r8d3 : TxDoc := removeOp r8d2.doc r8Table "x"

def r8d4 : TxDoc := (upsert r8d3.doc r8Table r8Row2).2

/-- Claim C8 (counterexample) — the claimed post-condition getKey(row.key) =
row2 of the upsert–remove–upsert sequence fails as stated: the replacement
row is schema-valid, but getKey returns the raw field as the attached handle
at its path, not the detached instance inside row2. -/
theorem reupsert_raw_row_does_not_equal_new_row :
    parseV (rowSch r8Table) r8Row2 = some r8Row2
    ∧ getKey r8d4.doc r8Table "x" ≠ some r8Row2 := by decide

/-- Claim C8 (amended) — mutation operations never write raw shared
containers: upsert, update and remove all leave every raw container's content
untouched, on any document.  In the upsert–remove–upsert sequence the revived
row reads back as the expected read of the replacement row — inline fields as
written and the raw field as the attached handle at its path — and the raw
container keeps the content it was given before the remove. -/
theorem mutation_ops_never_write_raw_containers (doc : Doc) (T : Table)
    (row u : JVal) (k : String) :
    (upsert doc T row).2.doc.raws = doc.raws
    ∧ (updateOp doc T u).1.doc.raws = doc.raws
    ∧ (removeOp doc T k).doc.raws = doc.raws
    ∧ getKey r8d4.doc r8Table "x"
        = some (.jobj (.cons "key" (.str "x") (.cons "n" (.int 2)
            (.cons "m" (.yref .ymap ["r8", "x", "m"]) .nil))))
    ∧ r8d4.doc.raws = [(["r8", "x", "m"], 7)]
    ∧ lookupP r8d4.doc.raws ["r8", "x", "m"] = some 7 :=
  ⟨upsert_raws doc T row, updateOp_raws doc T u,
    by rw [removeOp, mapDel_raws], by decide, by decide, by decide⟩

end YQ
